import Mathlib

/-!
Verification of the ledger engine of the holiday-house expense splitter
(`app.py`).  The Python code is shallowly embedded: strings are processed as
their character lists, Python `int` is modelled by `ℤ`, Python `float` by `ℚ`
(exact arithmetic; numeric literals are taken at face value, so the tolerance
literal `0.01` is `1/100`), Python dicts by insertion-ordered association
lists, and raised exceptions by `Except`/`Option` results.  Python `set`s have
unspecified iteration order, so a set that is only consumed in an
order-insensitive way is modelled by a `Finset` or by a deduplicated list.
-/

/-- Characters stripped by Python `str.strip()` (model restricted to the ASCII
whitespace recognised by `Char.isWhitespace`). -/
def pyStrip (l : List Char) : List Char :=
  ((l.dropWhile Char.isWhitespace).reverse.dropWhile Char.isWhitespace).reverse

/-- Model of Python `str.split(sep)` for a one-character separator, on
character lists.  `split` always returns at least one (possibly empty) piece. -/
def splitOnChar (c : Char) : List Char → List (List Char)
  | [] => [[]]
  | x :: xs =>
    let rest := splitOnChar c xs
    if x = c then [] :: rest
    else match rest with
      | [] => [[x]]
      | y :: ys => (x :: y) :: ys

/-- Model of Python `text.strip().split('\n')`, used by all three parsers. -/
def splitLines (text : String) : List (List Char) :=
  splitOnChar '\n' (pyStrip text.data)

/-- Model of Python `str.split(sep, 1)` for a one-character separator: the part
before the first occurrence and the part after it (callers check that the
separator occurs). -/
def splitFirst (c : Char) (l : List Char) : List Char × List Char :=
  (l.takeWhile (fun x => x ≠ c), (l.dropWhile (fun x => x ≠ c)).tail)

/-- Numeric value of a digit string (no validity check; callers validate). -/
def digitsVal (l : List Char) : ℕ :=
  l.foldl (fun a c => 10 * a + (c.toNat - 48)) 0

/-- Nonempty all-digit character list, as a natural number. -/
def digitsToNat (l : List Char) : Option ℕ :=
  if l ≠ [] ∧ l.all Char.isDigit then some (digitsVal l) else none

/-- Model of Python `int(s)` on an already stripped string: an optional sign
followed by at least one ASCII digit (digit-group underscores are not
modelled). A failure models the `ValueError` raised by `int`. -/
def pyInt (l : List Char) : Option ℤ :=
  match l with
  | [] => none
  | c :: rest =>
    if c = '-' then (digitsToNat rest).map (fun (n : ℕ) => -(n : ℤ))
    else if c = '+' then (digitsToNat rest).map (fun (n : ℕ) => (n : ℤ))
    else (digitsToNat (c :: rest)).map (fun (n : ℕ) => (n : ℤ))

/-- Ten to an integer power, as a rational. -/
def qpow10 (e : ℤ) : ℚ :=
  if 0 ≤ e then (10 : ℚ) ^ e.toNat else 1 / (10 : ℚ) ^ (-e).toNat

/-- Mantissa of a Python float literal: `digits`, `digits.digits`,
`digits.` or `.digits` (at least one digit overall). -/
def pyFloatMantissa (l : List Char) : Option ℚ :=
  match splitOnChar '.' l with
  | [d] => (digitsToNat d).map (fun (n : ℕ) => (n : ℚ))
  | [i, f] =>
    if (i ≠ [] ∨ f ≠ []) ∧ i.all Char.isDigit ∧ f.all Char.isDigit then
      some (((digitsVal (i ++ f) : ℤ) : ℚ) / (10 : ℚ) ^ f.length)
    else none
  | _ => none

/-- Unsigned part of a Python float literal: mantissa with an optional
`e`/`E` exponent. -/
def pyFloatUnsigned (l : List Char) : Option ℚ :=
  match splitOnChar 'e' (l.map (fun c => if c = 'E' then 'e' else c)) with
  | [m] => pyFloatMantissa m
  | [m, ex] => (pyFloatMantissa m).bind (fun q => (pyInt ex).map (fun (e : ℤ) => q * qpow10 e))
  | _ => none

/-- Model of Python `float(s)` on an already stripped string, restricted to
finite decimal literals (the special strings accepted by `float` such as
`inf`/`nan` have no exact rational value and are not modelled; digit-group
underscores are not modelled).  A failure models the `ValueError`. -/
def pyFloat (l : List Char) : Option ℚ :=
  match l with
  | [] => none
  | c :: rest =>
    if c = '-' then (pyFloatUnsigned rest).map (fun q => -q)
    else if c = '+' then pyFloatUnsigned rest
    else pyFloatUnsigned (c :: rest)

/-- Association-list update modelling Python `d[k] = v` on a dict: the value
of an existing key is replaced in place, a new key is appended. -/
def alInsert : List (String × String) → String → String → List (String × String)
  | [], k, v => [(k, v)]
  | (k', v') :: rest, k, v =>
    if k' = k then (k, v) :: rest else (k', v') :: alInsert rest k v

/-- Association-list accumulation modelling `defaultdict` `d[k] += v`: the
value of an existing key is increased in place, a new key is appended with the
added value (the default being zero). -/
def alAdd {α : Type} [Add α] : List (String × α) → String → α → List (String × α)
  | [], k, v => [(k, v)]
  | (k', v') :: rest, k, v =>
    if k' = k then (k', v' + v) :: rest else (k', v') :: alAdd rest k v

/-- Association-list lookup modelling Python `d[k]` / `k in d`. -/
def alLookup {α : Type} (k : String) : List (String × α) → Option α
  | [] => none
  | (k', v) :: rest => if k' = k then some v else alLookup k rest

/-- Association-list lookup with default, modelling Python `d.get(k, dflt)`. -/
def alLookupD {α : Type} (l : List (String × α)) (k : String) (dflt : α) : α :=
  (alLookup k l).getD dflt

/-- Translation of `parse_families` (`app.py` lines 65-80): each line
`Family:Member1,Member2,...` is split on the first colon; every nonempty
trimmed member is assigned to the family, later assignments overwriting
earlier ones (last-write-wins, as for a Python dict). -/
def parse_families (text : String) : List (String × String) :=
  (splitLines text).foldl (fun member_to_family rawLine =>
    let line := pyStrip rawLine
    if line = [] ∨ ¬ line.contains ':' then member_to_family
    else
      let (famPart, membersPart) := splitFirst ':' line
      let family_name : String := ⟨pyStrip famPart⟩
      (splitOnChar ',' membersPart).foldl (fun m rawMember =>
        let member := pyStrip rawMember
        if member = [] then m else alInsert m ⟨member⟩ family_name) member_to_family)
    []

/-- Stay record, the Python dict `{'member_name': ..., 'nights': ...}`. -/
structure StayRecord where
  member_name : String
  nights : ℤ
deriving DecidableEq

/-- Expense record, the Python dict built by `parse_expenses`. -/
structure ExpenseRecord where
  paid_by_family : String
  expense_type : String
  amount : ℚ
  description : String
deriving DecidableEq

/-- Translation of `parse_stays` (`app.py` lines 83-100): lines
`Member,Nights`; lines without a comma, or whose nights field fails to parse
as an integer, are silently dropped. -/
def parse_stays (text : String) : List StayRecord :=
  (splitLines text).foldl (fun stays rawLine =>
    let line := pyStrip rawLine
    if line = [] ∨ ¬ line.contains ',' then stays
    else
      match splitOnChar ',' line with
      | p0 :: p1 :: _ =>
        match pyInt (pyStrip p1) with
        | some n => stays ++ [⟨⟨pyStrip p0⟩, n⟩]
        | none => stays
      | _ => stays)
    []

/-- Translation of `parse_expenses` (`app.py` lines 103-123): lines
`Family,Type,Amount[,Description]`; at least three comma-separated fields are
required, the amount must parse as a float, the description is exactly the
fourth field (later fields are ignored) and defaults to the empty string. -/
def parse_expenses (text : String) : List ExpenseRecord :=
  (splitLines text).foldl (fun expenses rawLine =>
    let line := pyStrip rawLine
    if line = [] ∨ ¬ line.contains ',' then expenses
    else
      match splitOnChar ',' line with
      | p0 :: p1 :: p2 :: rest =>
        match pyFloat (pyStrip p2) with
        | some amount =>
          expenses ++ [⟨⟨pyStrip p0⟩, ⟨pyStrip p1⟩, amount,
            match rest with
            | d :: _ => ⟨pyStrip d⟩
            | [] => ""⟩]
        | none => expenses
      | _ => expenses)
    []

example : parse_families "Adams:John,Mary\nOiler:Bob" =
    [("John", "Adams"), ("Mary", "Adams"), ("Bob", "Oiler")] := by decide

example : parse_stays "John,5\nBadLine\nBob,10" =
    [⟨"John", 5⟩, ⟨"Bob", 10⟩] := by decide

example : parse_expenses "Adams,rent,100,House\nOiler,food,abc" =
    [⟨"Adams", "rent", 100, "House"⟩] := by decide

example : parse_expenses "Adams,rent,10.5" = [⟨"Adams", "rent", 21/2, ""⟩] := by
  simp +decide [parse_expenses, splitLines, splitOnChar, pyStrip, pyFloat, pyFloatUnsigned,
    pyFloatMantissa, digitsToNat, digitsVal]
  norm_num

/-- Loop body of `calculate_person_nights`: one stay is added to the running
per-family totals, unless the member is missing from the family map, in which
case the Python subscript `member_to_family[member]` raises `KeyError`
(modelled by the `Except.error` value carrying the missing key). -/
def pnStep (member_to_family : List (String × String))
    (acc : Except String (List (String × ℤ))) (stay : StayRecord) :
    Except String (List (String × ℤ)) :=
  acc.bind (fun family_nights =>
    match alLookup stay.member_name member_to_family with
    | some family => .ok (alAdd family_nights family stay.nights)
    | none => .error stay.member_name)

/-- Translation of `calculate_person_nights` (`app.py` lines 126-134): total
person-nights per family, accumulated in stay order. -/
def calculate_person_nights (stays : List StayRecord)
    (member_to_family : List (String × String)) : Except String (List (String × ℤ)) :=
  stays.foldl (pnStep member_to_family) (.ok [])

/-- Translation of `calculate_family_payments` (`app.py` lines 137-142). -/
def calculate_family_payments (expenses : List ExpenseRecord) : List (String × ℚ) :=
  expenses.foldl (fun payments e => alAdd payments e.paid_by_family e.amount) []

/-- Translation of `calculate_expense_totals_by_type` (`app.py` lines 145-150). -/
def calculate_expense_totals_by_type (expenses : List ExpenseRecord) : List (String × ℚ) :=
  expenses.foldl (fun totals e => alAdd totals e.expense_type e.amount) []

/-- Lexicographic comparison of character lists by code point, modelling
Python string comparison (written directly so that concrete comparisons
evaluate by kernel reduction). -/
def charListLt : List Char → List Char → Bool
  | [], [] => false
  | [], _ :: _ => true
  | _ :: _, [] => false
  | a :: as, b :: bs => a.toNat < b.toNat || (a = b && charListLt as bs)

/-- Python `<` on strings. -/
def strLt (a b : String) : Bool := charListLt a.data b.data

/-- The sort order used by `calculate_settlements` (`app.py` lines 164-165):
Python `list.sort(key=lambda x: (-x[1], x[0]))`, i.e. ascending lexicographic
order on the key tuple (negated amount, name). -/
def sortKeyLe (p q : String × ℚ) : Prop :=
  -p.2 < -q.2 ∨ (-p.2 = -q.2 ∧ (strLt p.1 q.1 = true ∨ p.1 = q.1))

instance : DecidableRel sortKeyLe := fun p q => by unfold sortKeyLe; infer_instance

/-- One round of head updates of the settlement loop (`app.py` lines 177-183):
the head entry is decremented by the matched amount and removed when its
remainder falls below the `0.01` tolerance.  The same update is applied to the
debtor and to the creditor list. -/
def popStep : List (String × ℚ) → ℚ → List (String × ℚ)
  | [], _ => []
  | (name, v) :: rest, amount =>
    if v - amount < 1/100 then rest else (name, v - amount) :: rest

/-- The settlement loop of `calculate_settlements` (`app.py` lines 169-183).
Each iteration matches the heads of the two lists, emits a transfer when the
matched amount exceeds the tolerance, and updates both heads with `popStep`.
The loop is driven by fuel; since every iteration removes at least one list
entry, fuel `debtors.length + creditors.length` makes the fuel bound
unreachable (proved below), so this is a faithful model of the unbounded
`while` loop. -/
def settleAux : ℕ → List (String × ℚ) → List (String × ℚ) → List (String × String × ℚ)
  | 0, _, _ => []
  | _ + 1, [], _ => []
  | _ + 1, _ :: _, [] => []
  | fuel + 1, (debtor, debt) :: ds, (creditor, credit) :: cs =>
    let amount := min debt credit
    let rest := settleAux fuel (popStep ((debtor, debt) :: ds) amount)
      (popStep ((creditor, credit) :: cs) amount)
    if 1/100 < amount then (debtor, creditor, amount) :: rest else rest

/-- Translation of `calculate_settlements` (`app.py` lines 153-185): partition
the balances into debtors (balance below `-0.01`, stored as positive debts)
and creditors (balance above `0.01`), sort both lists by descending amount
with ties broken by ascending name, then run the greedy matching loop.
`List.insertionSort` models Python's stable `list.sort`; the order is total
and antisymmetric on the entries, so any stable sort yields this result. -/
def calculate_settlements (balances : List (String × ℚ)) : List (String × String × ℚ) :=
  let debtors := List.insertionSort sortKeyLe
    ((balances.filter (fun p => p.2 < -(1/100))).map (fun p => (p.1, -p.2)))
  let creditors := List.insertionSort sortKeyLe
    (balances.filter (fun p => (1/100 : ℚ) < p.2))
  settleAux (debtors.length + creditors.length) debtors creditors

/-- Errors surfaced by the calculation cycle.  `unknownMembers` and
`unknownFamilies` model the two validation failures (`app.py` lines 405-424);
`unknownFamilies` carries the `set()` of offending names that the code
displays, `unknownMembers` the raw list it joins.  `genericException` models
any Python exception caught by the outermost `except Exception` handler
(`app.py` lines 456-460), carrying the exception text.  `divisionByZero` is
modelled from the spec: it is the distinct pre-checked "no stays recorded"
error that §4.4 of the spec describes; it is declared so that the specified
behaviour can be stated and compared with the code, which never produces it. -/
inductive PyError where
  | unknownMembers (names : List String)
  | unknownFamilies (names : Finset String)
  | divisionByZero (msg : String)
  | genericException (msg : String)
deriving DecidableEq

/-- The result tuple stored in `st.session_state['results']` (`app.py` lines
443-455).  `all_families` is a Python `set` consumed only after sorting, so it
is modelled by the deduplicated list of family names. -/
structure CalcResults where
  member_to_family : List (String × String)
  stays : List StayRecord
  expenses : List ExpenseRecord
  family_nights : List (String × ℤ)
  family_payments : List (String × ℚ)
  total_expenses : ℚ
  total_nights : ℤ
  cost_per_night : ℚ
  balances : List (String × ℚ)
  settlements : List (String × String × ℚ)
  all_families : List String
deriving DecidableEq

/-- Translation of the `calculate_clicked` block (`app.py` lines 391-460):
parse the three text blocks, validate stay members then expense families
(each failure stopping the cycle), aggregate, divide (a zero total of
person-nights makes the Python division raise `ZeroDivisionError`, which the
outermost handler surfaces generically), derive balances over the union of
families, and compute settlements.  An `Except.error` result models a cycle
that stores no results. -/
def calcBlock (families_data stays_data expenses_data : String) :
    Except PyError CalcResults :=
  let member_to_family := parse_families families_data
  let stays := parse_stays stays_data
  let expenses := parse_expenses expenses_data
  let unknown_members :=
    (stays.filter (fun s => !(alLookup s.member_name member_to_family).isSome)).map
      (fun s => s.member_name)
  if unknown_members ≠ [] then .error (.unknownMembers unknown_members)
  else
    let unknown_families :=
      (expenses.filter (fun e => !((member_to_family.map Prod.snd).contains e.paid_by_family))).map
        (fun e => e.paid_by_family)
    if unknown_families ≠ [] then .error (.unknownFamilies unknown_families.toFinset)
    else
      match calculate_person_nights stays member_to_family with
      | .error missingKey => .error (.genericException ("KeyError: " ++ missingKey))
      | .ok family_nights =>
        let family_payments := calculate_family_payments expenses
        let total_expenses := (expenses.map (fun e => e.amount)).sum
        let total_nights := (family_nights.map Prod.snd).sum
        if total_nights = 0 then
          .error (.genericException
            (if expenses.isEmpty then "division by zero" else "float division by zero"))
        else
          let cost_per_night := total_expenses / (total_nights : ℚ)
          let all_families := (family_nights.map Prod.fst ++ family_payments.map Prod.fst).dedup
          let balances := all_families.map (fun family =>
            (family, alLookupD family_payments family 0
              - ((alLookupD family_nights family 0 : ℤ) : ℚ) * cost_per_night))
          let settlements := calculate_settlements balances
          .ok {
            member_to_family := member_to_family
            stays := stays
            expenses := expenses
            family_nights := family_nights
            family_payments := family_payments
            total_expenses := total_expenses
            total_nights := total_nights
            cost_per_night := cost_per_night
            balances := balances
            settlements := settlements
            all_families := all_families
          }

/-- Total amount a family pays as the payer (`from` side) of a transfer list. -/
def paidBy (f : String) (ts : List (String × String × ℚ)) : ℚ :=
  ((ts.filter (fun t => t.1 = f)).map (fun t => t.2.2)).sum

/-- Total amount a family receives as the payee (`to` side) of a transfer list. -/
def receivedBy (f : String) (ts : List (String × String × ℚ)) : ℚ :=
  ((ts.filter (fun t => t.2.1 = f)).map (fun t => t.2.2)).sum

/-- Modelled from the spec: testable property 2 applies every transfer to the
balance mapping by subtracting the amount from the payer (`from`) and adding
it to the payee (`to`).  This is the operation the claim is about; the code
itself never re-applies transfers. -/
def applyTransfersAsSpecified (ts : List (String × String × ℚ))
    (balances : List (String × ℚ)) : List (String × ℚ) :=
  balances.map (fun p => (p.1, p.2 - paidBy p.1 ts + receivedBy p.1 ts))

/-- Applying every transfer in the settling direction: a payment raises the
payer's (negative) balance and lowers the payee's (positive) balance, the
direction that reduces both parties' outstanding amounts (glossary: a
settlement transfer "reduces both parties' outstanding balance"). -/
def applyTransfersSettling (ts : List (String × String × ℚ))
    (balances : List (String × ℚ)) : List (String × ℚ) :=
  balances.map (fun p => (p.1, p.2 + paidBy p.1 ts - receivedBy p.1 ts))

/-- Modelled from the spec: §4.5 step 2 sort order, "descending by amount,
ties broken by ascending family name (lexicographic)". -/
def specOrder (p q : String × ℚ) : Prop :=
  q.2 < p.2 ∨ (p.2 = q.2 ∧ (strLt p.1 q.1 = true ∨ p.1 = q.1))

instance : DecidableRel specOrder := fun p q => by unfold specOrder; infer_instance

/-- Modelled from the spec: §4.5 step 3, written step by step from its words:
while both lists are nonempty, take the two head entries, let the amount be
the minimum of debt and credit, emit a transfer when the amount exceeds 0.01,
decrement both heads, and remove a head whose remainder fell below 0.01. -/
def specLoop : ℕ → List (String × ℚ) → List (String × ℚ) → List (String × String × ℚ)
  | 0, _, _ => []
  | _ + 1, [], _ => []
  | _ + 1, _ :: _, [] => []
  | fuel + 1, (debtor, debt) :: ds, (creditor, credit) :: cs =>
    let amount := min debt credit
    let emitted := if 1/100 < amount then [(debtor, creditor, amount)] else []
    let ds' := if debt - amount < 1/100 then ds else (debtor, debt - amount) :: ds
    let cs' := if credit - amount < 1/100 then cs else (creditor, credit - amount) :: cs
    emitted ++ specLoop fuel ds' cs'

/-- Modelled from the spec: the §4.5 settlement engine: partition into debtors
(balance below −0.01, kept as positive debt) and creditors (balance above
0.01), omitting families within ±0.01 of zero; sort each side descending by
amount with ties by ascending name; then run the greedy head-matching loop. -/
def specSettlementEngine (balances : List (String × ℚ)) : List (String × String × ℚ) :=
  let debtors := List.insertionSort specOrder
    ((balances.filter (fun p => p.2 < -(1/100))).map (fun p => (p.1, -p.2)))
  let creditors := List.insertionSort specOrder
    (balances.filter (fun p => (1/100 : ℚ) < p.2))
  specLoop (debtors.length + creditors.length) debtors creditors

/-! Basic facts about the association-list helpers. -/

theorem alAdd_sum {α : Type} [AddCommMonoid α] (al : List (String × α)) (k : String) (v : α) :
    ((alAdd al k v).map Prod.snd).sum = (al.map Prod.snd).sum + v := by
  induction al with
  | nil => simp [alAdd]
  | cons hd tl ih =>
    obtain ⟨k', v'⟩ := hd
    by_cases h : k' = k
    · simp [alAdd, h, add_assoc, add_comm v]
    · simp [alAdd, h, ih, add_assoc]

theorem alAdd_keys {α : Type} [Add α] (al : List (String × α)) (k : String) (v : α) :
    (alAdd al k v).map Prod.fst =
      if k ∈ al.map Prod.fst then al.map Prod.fst else al.map Prod.fst ++ [k] := by
  induction al with
  | nil => simp [alAdd]
  | cons hd tl ih =>
    obtain ⟨k', v'⟩ := hd
    by_cases h : k' = k
    · simp [alAdd, h]
    · have hne : ¬ k = k' := fun hh => h hh.symm
      simp only [alAdd, if_neg h, List.map_cons, ih]
      by_cases hk : k ∈ tl.map Prod.fst
      · simp [hk, hne]
      · simp [hk, hne]

theorem alAdd_keys_nodup {α : Type} [Add α] (al : List (String × α)) (k : String) (v : α)
    (h : (al.map Prod.fst).Nodup) : ((alAdd al k v).map Prod.fst).Nodup := by
  rw [alAdd_keys]
  split
  · exact h
  · next hk =>
    rw [List.nodup_append]
    refine ⟨h, List.nodup_singleton _, ?_⟩
    intro a ha hb
    simp at hb
    subst hb
    exact hk ha

theorem alLookup_eq_none {α : Type} (k : String) (al : List (String × α)) :
    alLookup k al = none ↔ k ∉ al.map Prod.fst := by
  induction al with
  | nil => simp [alLookup]
  | cons hd tl ih =>
    obtain ⟨k', v'⟩ := hd
    by_cases h : k' = k
    · simp [alLookup, h]
    · have hne : ¬ k = k' := fun hh => h hh.symm
      simp [alLookup, h, ih, hne]

theorem alLookup_isSome {α : Type} (k : String) (al : List (String × α)) :
    (alLookup k al).isSome = true ↔ k ∈ al.map Prod.fst := by
  rw [Option.isSome_iff_ne_none]
  constructor
  · intro h
    by_contra hk
    exact h ((alLookup_eq_none k al).mpr hk)
  · intro h hnone
    exact (alLookup_eq_none k al).mp hnone h

/-- Summing a defaulted lookup over any duplicate-free list of keys covering
the association list's keys gives the sum of the stored values. -/
theorem sum_alLookupD {α : Type} [AddCommMonoid α] (al : List (String × α)) (L : List String)
    (hal : (al.map Prod.fst).Nodup) (hL : L.Nodup) (hsub : ∀ k ∈ al.map Prod.fst, k ∈ L) :
    (L.map (fun f => alLookupD al f 0)).sum = (al.map Prod.snd).sum := by
  induction al generalizing L with
  | nil => simp [alLookupD, alLookup]
  | cons hd tl ih =>
    obtain ⟨k, v⟩ := hd
    have hkL : k ∈ L := hsub k (by simp)
    have hcons := List.nodup_cons.mp (show (k :: tl.map Prod.fst).Nodup by simpa using hal)
    have hknotl : k ∉ tl.map Prod.fst := hcons.1
    have htl : (tl.map Prod.fst).Nodup := hcons.2
    have hperm : List.Perm L (k :: L.erase k) := List.perm_cons_erase hkL
    have hsum : (L.map (fun f => alLookupD ((k, v) :: tl) f 0)).sum
        = ((k :: L.erase k).map (fun f => alLookupD ((k, v) :: tl) f 0)).sum :=
      (hperm.map _).sum_eq
    rw [hsum]
    have hkself : alLookupD ((k, v) :: tl) k 0 = v := by simp [alLookupD, alLookup]
    have hrest : ((L.erase k).map (fun f => alLookupD ((k, v) :: tl) f 0))
        = ((L.erase k).map (fun f => alLookupD tl f 0)) := by
      apply List.map_congr_left
      intro f hf
      have hfk : f ≠ k := (hL.mem_erase_iff.mp hf).1
      simp [alLookupD, alLookup, Ne.symm hfk]
    have herase : ((L.erase k).map (fun f => alLookupD tl f 0)).sum
        = (tl.map Prod.snd).sum := by
      apply ih (L.erase k) htl (hL.erase k)
      intro k' hk'
      have hk'L : k' ∈ L := hsub k' (by simp [hk'])
      have hk'ne : k' ≠ k := fun h => hknotl (h ▸ hk')
      exact (List.mem_erase_of_ne hk'ne).mpr hk'L
    simp only [List.map_cons, List.sum_cons, hkself, hrest, herase]

/-! Facts about the aggregators. -/

theorem payments_foldl_sum (es : List ExpenseRecord) (acc : List (String × ℚ)) :
    ((es.foldl (fun payments e => alAdd payments e.paid_by_family e.amount) acc).map
        Prod.snd).sum = (acc.map Prod.snd).sum + (es.map (fun e => e.amount)).sum := by
  induction es generalizing acc with
  | nil => simp
  | cons e rest ih => simp [ih, alAdd_sum, add_assoc]

theorem payments_sum (es : List ExpenseRecord) :
    ((calculate_family_payments es).map Prod.snd).sum = (es.map (fun e => e.amount)).sum := by
  simpa using payments_foldl_sum es []

theorem payments_foldl_keys_nodup (es : List ExpenseRecord) (acc : List (String × ℚ))
    (hacc : (acc.map Prod.fst).Nodup) :
    ((es.foldl (fun payments e => alAdd payments e.paid_by_family e.amount) acc).map
        Prod.fst).Nodup := by
  induction es generalizing acc with
  | nil => simpa
  | cons e rest ih => exact ih _ (alAdd_keys_nodup _ _ _ hacc)

theorem payments_keys_nodup (es : List ExpenseRecord) :
    ((calculate_family_payments es).map Prod.fst).Nodup :=
  payments_foldl_keys_nodup es [] (by simp)

theorem except_bind_ok {ε α β : Type} (a : α) (f : α → Except ε β) :
    (Except.ok a).bind f = f a := rfl

theorem except_bind_error {ε α β : Type} (e : ε) (f : α → Except ε β) :
    (Except.error e : Except ε α).bind f = Except.error e := rfl

theorem pnStep_error (m2f : List (String × String)) (k : String) (s : StayRecord) :
    pnStep m2f (.error k) s = .error k := rfl

theorem pnStep_found (m2f : List (String × String)) (al : List (String × ℤ))
    (s : StayRecord) (fam : String) (h : alLookup s.member_name m2f = some fam) :
    pnStep m2f (.ok al) s = .ok (alAdd al fam s.nights) := by
  simp [pnStep, except_bind_ok, h]

theorem pnStep_missing (m2f : List (String × String)) (al : List (String × ℤ))
    (s : StayRecord) (h : alLookup s.member_name m2f = none) :
    pnStep m2f (.ok al) s = .error s.member_name := by
  simp [pnStep, except_bind_ok, h]

theorem person_nights_foldl_error (stays : List StayRecord)
    (m2f : List (String × String)) (k : String) :
    stays.foldl (pnStep m2f) (.error k) = .error k := by
  induction stays with
  | nil => rfl
  | cons s rest ih =>
    rw [List.foldl_cons, pnStep_error]
    exact ih

theorem person_nights_foldl_ok (stays : List StayRecord) (m2f : List (String × String))
    (acc : List (String × ℤ)) (fn : List (String × ℤ))
    (h : stays.foldl (pnStep m2f) (.ok acc) = .ok fn) :
    (fn.map Prod.snd).sum = (acc.map Prod.snd).sum + (stays.map (fun s => s.nights)).sum
      ∧ ((acc.map Prod.fst).Nodup → (fn.map Prod.fst).Nodup) := by
  induction stays generalizing acc with
  | nil =>
    simp only [List.foldl_nil] at h
    injection h with h
    subst h
    simp
  | cons s rest ih =>
    rw [List.foldl_cons] at h
    rcases hlk : alLookup s.member_name m2f with _ | fam
    · rw [pnStep_missing m2f acc s hlk, person_nights_foldl_error] at h
      exact absurd h (by simp)
    · rw [pnStep_found m2f acc s fam hlk] at h
      obtain ⟨h1, h2⟩ := ih _ h
      constructor
      · rw [h1, alAdd_sum]
        simp [add_assoc]
      · intro hacc
        exact h2 (alAdd_keys_nodup _ _ _ hacc)

theorem person_nights_foldl_ok_iff (stays : List StayRecord)
    (m2f : List (String × String)) (acc : List (String × ℤ)) :
    (∃ fn, stays.foldl (pnStep m2f) (.ok acc) = .ok fn)
      ↔ ∀ s ∈ stays, s.member_name ∈ m2f.map Prod.fst := by
  induction stays generalizing acc with
  | nil => simp
  | cons s rest ih =>
    rw [List.foldl_cons]
    rcases hlk : alLookup s.member_name m2f with _ | fam
    · rw [pnStep_missing m2f acc s hlk, person_nights_foldl_error]
      have hmem : s.member_name ∉ m2f.map Prod.fst := by
        rw [← alLookup_isSome, hlk]
        simp
      constructor
      · rintro ⟨fn, hfn⟩
        exact absurd hfn (by simp)
      · intro h
        exact absurd (h s (by simp)) hmem
    · rw [pnStep_found m2f acc s fam hlk, ih]
      have hmem : s.member_name ∈ m2f.map Prod.fst := by
        rw [← alLookup_isSome, hlk]
        simp
      constructor
      · intro h s' hs'
        rw [List.mem_cons] at hs'
        rcases hs' with rfl | hs'
        · exact hmem
        · exact h s' hs'
      · intro h s' hs'
        exact h s' (List.mem_cons_of_mem _ hs')

theorem person_nights_ok_iff (stays : List StayRecord) (m2f : List (String × String)) :
    (∃ fn, calculate_person_nights stays m2f = .ok fn)
      ↔ ∀ s ∈ stays, s.member_name ∈ m2f.map Prod.fst := by
  unfold calculate_person_nights
  exact person_nights_foldl_ok_iff stays m2f []

theorem person_nights_foldl_error_notmem (stays : List StayRecord)
    (m2f : List (String × String)) (acc : List (String × ℤ)) (k : String)
    (h : stays.foldl (pnStep m2f) (.ok acc) = .error k) :
    k ∉ m2f.map Prod.fst := by
  induction stays generalizing acc with
  | nil => exact absurd h (by simp)
  | cons s rest ih =>
    rw [List.foldl_cons] at h
    rcases hlk : alLookup s.member_name m2f with _ | fam
    · rw [pnStep_missing m2f acc s hlk, person_nights_foldl_error] at h
      have hk : k = s.member_name := by
        injection h with h
        exact h.symm
      subst hk
      rw [← alLookup_isSome, hlk]
      simp
    · rw [pnStep_found m2f acc s fam hlk] at h
      exact ih _ h

/-! Sign analysis of the numeric parsers, and character provenance. -/

theorem pyInt_nonneg (l : List Char) (n : ℤ) (hminus : '-' ∉ l) (h : pyInt l = some n) :
    0 ≤ n := by
  match l with
  | [] => exact absurd h (by simp [pyInt])
  | c :: rest =>
    have hc : c ≠ '-' := fun hc => hminus (hc ▸ List.mem_cons_self c rest)
    rw [pyInt] at h
    rw [if_neg hc] at h
    by_cases hp : c = '+'
    · rw [if_pos hp] at h
      cases hd : digitsToNat rest with
      | none => simp [hd] at h
      | some m =>
        rw [hd] at h
        simp only [Option.map_some', Option.some.injEq] at h
        rw [← h]
        exact Int.natCast_nonneg m
    · rw [if_neg hp] at h
      cases hd : digitsToNat (c :: rest) with
      | none => simp [hd] at h
      | some m =>
        rw [hd] at h
        simp only [Option.map_some', Option.some.injEq] at h
        rw [← h]
        exact Int.natCast_nonneg m

theorem qpow10_nonneg (e : ℤ) : 0 ≤ qpow10 e := by
  unfold qpow10
  split <;> positivity

theorem pyFloatMantissa_nonneg (l : List Char) (q : ℚ) (h : pyFloatMantissa l = some q) :
    0 ≤ q := by
  unfold pyFloatMantissa at h
  split at h
  · rcases Option.map_eq_some'.mp h with ⟨m, hm, hq⟩
    rw [← hq]
    positivity
  · split at h
    · injection h with h
      rw [← h]
      positivity
    · exact absurd h (by simp)
  · exact absurd h (by simp)

theorem pyFloatUnsigned_nonneg (l : List Char) (q : ℚ) (h : pyFloatUnsigned l = some q) :
    0 ≤ q := by
  unfold pyFloatUnsigned at h
  split at h
  · exact pyFloatMantissa_nonneg _ _ h
  · rcases Option.bind_eq_some.mp h with ⟨qm, hqm, hmap⟩
    rcases Option.map_eq_some'.mp hmap with ⟨e, he, hq⟩
    rw [← hq]
    exact mul_nonneg (pyFloatMantissa_nonneg _ _ hqm) (qpow10_nonneg e)
  · exact absurd h (by simp)

theorem pyFloat_nonneg (l : List Char) (q : ℚ) (hminus : '-' ∉ l) (h : pyFloat l = some q) :
    0 ≤ q := by
  match l with
  | [] => exact absurd h (by simp [pyFloat])
  | c :: rest =>
    have hc : c ≠ '-' := fun hc => hminus (hc ▸ List.mem_cons_self c rest)
    rw [pyFloat] at h
    rw [if_neg hc] at h
    by_cases hp : c = '+'
    · rw [if_pos hp] at h
      exact pyFloatUnsigned_nonneg _ _ h
    · rw [if_neg hp] at h
      exact pyFloatUnsigned_nonneg _ _ h

theorem pyStrip_subset (l : List Char) : ∀ x ∈ pyStrip l, x ∈ l := by
  intro x hx
  unfold pyStrip at hx
  rw [List.mem_reverse] at hx
  have h1 : x ∈ (l.dropWhile Char.isWhitespace).reverse :=
    (List.dropWhile_sublist _).subset hx
  rw [List.mem_reverse] at h1
  exact (List.dropWhile_sublist _).subset h1

theorem splitOnChar_subset (c : Char) (l : List Char) :
    ∀ p ∈ splitOnChar c l, ∀ x ∈ p, x ∈ l := by
  induction l with
  | nil =>
    intro p hp x hx
    simp [splitOnChar] at hp
    subst hp
    exact absurd hx (by simp)
  | cons a as ih =>
    intro p hp x hx
    rw [splitOnChar] at hp
    by_cases hac : a = c
    · rw [if_pos hac] at hp
      rcases List.mem_cons.mp hp with rfl | hp
      · exact absurd hx (by simp)
      · exact List.mem_cons_of_mem _ (ih p hp x hx)
    · rw [if_neg hac] at hp
      rcases hrest : splitOnChar c as with _ | ⟨y, ys⟩
      · rw [hrest] at hp
        rcases List.mem_cons.mp hp with rfl | hp
        · rcases List.mem_cons.mp hx with rfl | hx
          · exact List.mem_cons_self _ _
          · exact absurd hx (by simp)
        · exact absurd hp (by simp)
      · rw [hrest] at hp
        rcases List.mem_cons.mp hp with rfl | hp
        · rcases List.mem_cons.mp hx with rfl | hx
          · exact List.mem_cons_self _ _
          · exact List.mem_cons_of_mem _ (ih y (by rw [hrest]; exact List.mem_cons_self _ _) x hx)
        · exact List.mem_cons_of_mem _ (ih p (by rw [hrest]; exact List.mem_cons_of_mem _ hp) x hx)

theorem splitLines_subset (text : String) :
    ∀ p ∈ splitLines text, ∀ x ∈ p, x ∈ text.data := by
  intro p hp x hx
  exact pyStrip_subset _ _ (splitOnChar_subset _ _ p hp x hx)

theorem foldl_preserves {α β : Type} (P : β → Prop) (f : β → α → β) :
    ∀ (l : List α) (init : β), P init → (∀ b, ∀ a ∈ l, P b → P (f b a)) →
      P (l.foldl f init) := by
  intro l
  induction l with
  | nil =>
    intro init h _
    simpa
  | cons a as ih =>
    intro init h hstep
    rw [List.foldl_cons]
    exact ih _ (hstep init a (by simp) h)
      (fun b a' ha' hb => hstep b a' (by simp [ha']) hb)

theorem parse_stays_nonneg (text : String) (hminus : '-' ∉ text.data) :
    ∀ s ∈ parse_stays text, 0 ≤ s.nights := by
  unfold parse_stays
  refine foldl_preserves (fun (stays : List StayRecord) => ∀ s ∈ stays, 0 ≤ s.nights) _
    (splitLines text) [] ?_ ?_
  · simp
  · intro acc rawLine hline hacc
    dsimp only
    split
    · exact hacc
    · rcases hsp : splitOnChar ',' (pyStrip rawLine) with _ | ⟨p0, _ | ⟨p1, prest⟩⟩
      · exact hacc
      · exact hacc
      · show ∀ s ∈ (match pyInt (pyStrip p1) with
          | some n => acc ++ [(⟨⟨pyStrip p0⟩, n⟩ : StayRecord)]
          | none => acc), (0 : ℤ) ≤ s.nights
        rcases hint : pyInt (pyStrip p1) with _ | n
        · exact hacc
        · intro s hs
          rcases List.mem_append.mp hs with hs | hs
          · exact hacc s hs
          · have hsingle : s = ⟨⟨pyStrip p0⟩, n⟩ := by simpa using hs
            subst hsingle
            apply pyInt_nonneg _ _ _ hint
            intro hmem
            have h1 : '-' ∈ p1 := pyStrip_subset _ _ hmem
            have h2 : '-' ∈ pyStrip rawLine :=
              splitOnChar_subset ',' _ p1 (by rw [hsp]; simp) '-' h1
            have h3 : '-' ∈ rawLine := pyStrip_subset _ _ h2
            exact hminus (splitLines_subset text rawLine hline '-' h3)

theorem parse_expenses_nonneg (text : String) (hminus : '-' ∉ text.data) :
    ∀ e ∈ parse_expenses text, 0 ≤ e.amount := by
  unfold parse_expenses
  refine foldl_preserves (fun (expenses : List ExpenseRecord) => ∀ e ∈ expenses, 0 ≤ e.amount) _
    (splitLines text) [] ?_ ?_
  · simp
  · intro acc rawLine hline hacc
    dsimp only
    split
    · exact hacc
    · rcases hsp : splitOnChar ',' (pyStrip rawLine) with _ | ⟨p0, _ | ⟨p1, _ | ⟨p2, prest⟩⟩⟩
      · exact hacc
      · exact hacc
      · exact hacc
      · show ∀ e ∈ (match pyFloat (pyStrip p2) with
          | some amount => acc ++ [(⟨⟨pyStrip p0⟩, ⟨pyStrip p1⟩, amount,
              match prest with
              | d :: _ => ⟨pyStrip d⟩
              | [] => ""⟩ : ExpenseRecord)]
          | none => acc), (0 : ℚ) ≤ e.amount
        rcases hfl : pyFloat (pyStrip p2) with _ | amount
        · exact hacc
        · intro e he
          rcases List.mem_append.mp he with he | he
          · exact hacc e he
          · have hamt : e.amount = amount := by
              simp only [List.mem_singleton] at he
              rw [he]
            rw [hamt]
            apply pyFloat_nonneg _ _ _ hfl
            intro hmem
            have h1 : '-' ∈ p2 := pyStrip_subset _ _ hmem
            have h2 : '-' ∈ pyStrip rawLine :=
              splitOnChar_subset ',' _ p2 (by rw [hsp]; simp) '-' h1
            have h3 : '-' ∈ rawLine := pyStrip_subset _ _ h2
            exact hminus (splitLines_subset text rawLine hline '-' h3)

theorem list_sum_map_sub (L : List String) (f g : String → ℚ) :
    (L.map (fun x => f x - g x)).sum = (L.map f).sum - (L.map g).sum := by
  induction L with
  | nil => simp
  | cons a as ih =>
    simp only [List.map_cons, List.sum_cons, ih]
    ring

theorem list_sum_map_mul_right (L : List String) (f : String → ℚ) (c : ℚ) :
    (L.map (fun x => f x * c)).sum = (L.map f).sum * c := by
  induction L with
  | nil => simp
  | cons a as ih =>
    simp only [List.map_cons, List.sum_cons, ih]
    ring

theorem list_sum_map_intCast (L : List String) (f : String → ℤ) :
    (L.map (fun x => ((f x : ℤ) : ℚ))).sum = (((L.map f).sum : ℤ) : ℚ) := by
  induction L with
  | nil => simp
  | cons a as ih =>
    simp only [List.map_cons, List.sum_cons, ih]
    push_cast
    ring

theorem person_nights_ok_props (stays : List StayRecord) (m2f : List (String × String))
    (fn : List (String × ℤ)) (h : calculate_person_nights stays m2f = .ok fn) :
    (fn.map Prod.snd).sum = (stays.map (fun s => s.nights)).sum
      ∧ (fn.map Prod.fst).Nodup := by
  unfold calculate_person_nights at h
  obtain ⟨h1, h2⟩ := person_nights_foldl_ok _ _ [] _ h
  exact ⟨by simpa using h1, h2 (by simp)⟩

/-- The heart of the conservation law: over the union of the families of the
nights map and of the payments map, paid minus owed sums to zero exactly,
because the per-night rate redistributes exactly the total of the payments. -/
theorem balances_value_sum (fn : List (String × ℤ)) (fp : List (String × ℚ))
    (hfn : (fn.map Prod.fst).Nodup) (hfp : (fp.map Prod.fst).Nodup)
    (hN : ((fn.map Prod.snd).sum : ℤ) ≠ 0) :
    (((fn.map Prod.fst ++ fp.map Prod.fst).dedup).map (fun family =>
      alLookupD fp family 0 - ((alLookupD fn family 0 : ℤ) : ℚ)
        * ((fp.map Prod.snd).sum / (((fn.map Prod.snd).sum : ℤ) : ℚ)))).sum = 0 := by
  set L := (fn.map Prod.fst ++ fp.map Prod.fst).dedup with hL
  have hLnodup : L.Nodup := List.nodup_dedup _
  have hfnL : ∀ k ∈ fn.map Prod.fst, k ∈ L := by
    intro k hk
    rw [hL, List.mem_dedup]
    exact List.mem_append_left _ hk
  have hfpL : ∀ k ∈ fp.map Prod.fst, k ∈ L := by
    intro k hk
    rw [hL, List.mem_dedup]
    exact List.mem_append_right _ hk
  rw [list_sum_map_sub L (fun f => alLookupD fp f 0)
    (fun f => ((alLookupD fn f 0 : ℤ) : ℚ)
      * ((fp.map Prod.snd).sum / (((fn.map Prod.snd).sum : ℤ) : ℚ)))]
  rw [list_sum_map_mul_right L (fun f => ((alLookupD fn f 0 : ℤ) : ℚ))]
  rw [sum_alLookupD fp L hfp hLnodup hfpL]
  rw [list_sum_map_intCast L (fun f => alLookupD fn f 0)]
  rw [sum_alLookupD fn L hfn hLnodup hfnL]
  have hcast : (((fn.map Prod.snd).sum : ℤ) : ℚ) ≠ 0 := Int.cast_ne_zero.mpr hN
  rw [mul_div_assoc', mul_div_cancel_left₀ _ hcast, sub_self]

theorem calcBlock_ok_balances_sum (fT sT eT : String) (r : CalcResults)
    (h : calcBlock fT sT eT = .ok r) :
    (r.balances.map Prod.snd).sum = 0 := by
  unfold calcBlock at h
  dsimp only at h
  split at h
  · exact absurd h (by simp)
  · split at h
    · exact absurd h (by simp)
    · split at h
      · exact absurd h (by simp)
      · split at h
        · exact absurd h (by simp)
        · rename_i family_nights heq hnz
          injection h with h
          subst h
          dsimp only
          rw [List.map_map]
          have hfn := (person_nights_ok_props _ _ _ heq).2
          have hfp := payments_keys_nodup (parse_expenses eT)
          have hsum := balances_value_sum family_nights
            (calculate_family_payments (parse_expenses eT)) hfn hfp hnz
          rw [← payments_sum (parse_expenses eT)]
          exact hsum

/-! Basic facts about the settlement loop. -/

theorem popStep_names_subset (l : List (String × ℚ)) (a : ℚ) :
    ∀ x ∈ (popStep l a).map Prod.fst, x ∈ l.map Prod.fst := by
  intro x hx
  match l with
  | [] => simp [popStep] at hx
  | (name, v) :: rest =>
    rw [popStep] at hx
    split at hx
    · exact List.mem_cons_of_mem _ hx
    · simp only [List.map_cons] at hx
      rcases List.mem_cons.mp hx with rfl | hx
      · simp
      · exact List.mem_cons_of_mem _ hx

theorem popStep_length_le (l : List (String × ℚ)) (a : ℚ) :
    (popStep l a).length ≤ l.length := by
  match l with
  | [] => simp [popStep]
  | (name, v) :: rest =>
    rw [popStep]
    split <;> simp

theorem settle_step_decrease (debtor : String) (debt : ℚ) (ds : List (String × ℚ))
    (creditor : String) (credit : ℚ) (cs : List (String × ℚ)) :
    (popStep ((debtor, debt) :: ds) (min debt credit)).length
      + (popStep ((creditor, credit) :: cs) (min debt credit)).length
      < ((debtor, debt) :: ds).length + ((creditor, credit) :: cs).length := by
  have hd := popStep_length_le ((debtor, debt) :: ds) (min debt credit)
  have hc := popStep_length_le ((creditor, credit) :: cs) (min debt credit)
  rcases le_total debt credit with hle | hle
  · have hpop : popStep ((debtor, debt) :: ds) (min debt credit) = ds := by
      rw [popStep, min_eq_left hle, if_pos (show debt - debt < 1/100 by rw [sub_self]; norm_num)]
    rw [hpop]
    simp only [List.length_cons] at *
    omega
  · have hpop : popStep ((creditor, credit) :: cs) (min debt credit) = cs := by
      rw [popStep, min_eq_right hle, if_pos (show credit - credit < 1/100 by rw [sub_self]; norm_num)]
    rw [hpop]
    simp only [List.length_cons] at *
    omega

theorem settleAux_length (fuel : ℕ) : ∀ (ds cs : List (String × ℚ)),
    (settleAux fuel ds cs).length ≤ ds.length + cs.length - 1 := by
  induction fuel with
  | zero =>
    intro ds cs
    simp [settleAux]
  | succ fuel ih =>
    intro ds cs
    rcases ds with _ | ⟨⟨D, d⟩, ds'⟩
    · simp [settleAux]
    · rcases cs with _ | ⟨⟨C, c⟩, cs'⟩
      · simp [settleAux]
      · rw [settleAux]
        have hdec := settle_step_decrease D d ds' C c cs'
        have hrec := ih (popStep ((D, d) :: ds') (min d c)) (popStep ((C, c) :: cs') (min d c))
        split
        · simp only [List.length_cons] at *
          omega
        · simp only [List.length_cons] at *
          omega

theorem settleAux_fuel_irrel (f1 : ℕ) : ∀ (ds cs : List (String × ℚ)) (f2 : ℕ),
    ds.length + cs.length ≤ f1 → ds.length + cs.length ≤ f2 →
    settleAux f1 ds cs = settleAux f2 ds cs := by
  induction f1 with
  | zero =>
    intro ds cs f2 h1 h2
    have hds : ds = [] := List.eq_nil_of_length_eq_zero (by omega)
    have hcs : cs = [] := List.eq_nil_of_length_eq_zero (by omega)
    subst hds
    subst hcs
    cases f2 <;> rfl
  | succ f1 ih =>
    intro ds cs f2 h1 h2
    rcases ds with _ | ⟨⟨D, d⟩, ds'⟩
    · cases f2 <;> rfl
    · rcases cs with _ | ⟨⟨C, c⟩, cs'⟩
      · cases f2 <;> rfl
      · rcases f2 with _ | f2
        · simp only [List.length_cons] at h2
          omega
        · rw [settleAux, settleAux]
          have hdec := settle_step_decrease D d ds' C c cs'
          rw [ih (popStep ((D, d) :: ds') (min d c)) (popStep ((C, c) :: cs') (min d c)) f2
            (by simp only [List.length_cons] at *; omega)
            (by simp only [List.length_cons] at *; omega)]

theorem settleAux_mem (fuel : ℕ) : ∀ (ds cs : List (String × ℚ))
    (t : String × String × ℚ), t ∈ settleAux fuel ds cs →
    t.1 ∈ ds.map Prod.fst ∧ t.2.1 ∈ cs.map Prod.fst ∧ 1/100 < t.2.2 := by
  induction fuel with
  | zero =>
    intro ds cs t ht
    simp [settleAux] at ht
  | succ fuel ih =>
    intro ds cs t ht
    rcases ds with _ | ⟨⟨D, d⟩, ds'⟩
    · simp [settleAux] at ht
    · rcases cs with _ | ⟨⟨C, c⟩, cs'⟩
      · simp [settleAux] at ht
      · rw [settleAux] at ht
        split at ht
        · rcases List.mem_cons.mp ht with rfl | ht
          · refine ⟨by simp, by simp, ?_⟩
            next hamount => exact hamount
          · obtain ⟨h1, h2, h3⟩ := ih _ _ t ht
            exact ⟨popStep_names_subset ((D, d) :: ds') _ t.1 h1,
              popStep_names_subset ((C, c) :: cs') _ t.2.1 h2, h3⟩
        · obtain ⟨h1, h2, h3⟩ := ih _ _ t ht
          exact ⟨popStep_names_subset ((D, d) :: ds') _ t.1 h1,
            popStep_names_subset ((C, c) :: cs') _ t.2.1 h2, h3⟩

theorem paidBy_cons (f x y : String) (a : ℚ) (ts : List (String × String × ℚ)) :
    paidBy f ((x, y, a) :: ts) = (if x = f then a else 0) + paidBy f ts := by
  by_cases hx : x = f <;> simp [paidBy, List.filter_cons, hx]

theorem receivedBy_cons (f x y : String) (a : ℚ) (ts : List (String × String × ℚ)) :
    receivedBy f ((x, y, a) :: ts) = (if y = f then a else 0) + receivedBy f ts := by
  by_cases hy : y = f <;> simp [receivedBy, List.filter_cons, hy]

theorem paidBy_eq_zero (f : String) (ts : List (String × String × ℚ))
    (h : ∀ t ∈ ts, t.1 ≠ f) : paidBy f ts = 0 := by
  induction ts with
  | nil => rfl
  | cons t ts ih =>
    obtain ⟨x, y, a⟩ := t
    rw [paidBy_cons, if_neg (h (x, y, a) (by simp)), ih (fun t ht => h t (by simp [ht]))]
    ring

theorem receivedBy_eq_zero (f : String) (ts : List (String × String × ℚ))
    (h : ∀ t ∈ ts, t.2.1 ≠ f) : receivedBy f ts = 0 := by
  induction ts with
  | nil => rfl
  | cons t ts ih =>
    obtain ⟨x, y, a⟩ := t
    rw [receivedBy_cons, if_neg (h (x, y, a) (by simp)), ih (fun t ht => h t (by simp [ht]))]
    ring

theorem paidBy_nonneg (f : String) (ts : List (String × String × ℚ))
    (h : ∀ t ∈ ts, 0 ≤ t.2.2) : 0 ≤ paidBy f ts := by
  induction ts with
  | nil => simp [paidBy]
  | cons t ts ih =>
    obtain ⟨x, y, a⟩ := t
    rw [paidBy_cons]
    have ha : (0 : ℚ) ≤ a := h (x, y, a) (by simp)
    have hts : 0 ≤ paidBy f ts := ih (fun t ht => h t (by simp [ht]))
    split <;> linarith

theorem receivedBy_nonneg (f : String) (ts : List (String × String × ℚ))
    (h : ∀ t ∈ ts, 0 ≤ t.2.2) : 0 ≤ receivedBy f ts := by
  induction ts with
  | nil => simp [receivedBy]
  | cons t ts ih =>
    obtain ⟨x, y, a⟩ := t
    rw [receivedBy_cons]
    have ha : (0 : ℚ) ≤ a := h (x, y, a) (by simp)
    have hts : 0 ≤ receivedBy f ts := ih (fun t ht => h t (by simp [ht]))
    split <;> linarith

theorem popStep_values_nonneg (l : List (String × ℚ)) (a : ℚ)
    (h : ∀ p ∈ l, 0 ≤ p.2) : ∀ p ∈ popStep l a, 0 ≤ p.2 := by
  intro p hp
  match l with
  | [] => simp [popStep] at hp
  | (name, v) :: rest =>
    rw [popStep] at hp
    split at hp
    · exact h p (List.mem_cons_of_mem _ hp)
    · next hsurv =>
      rcases List.mem_cons.mp hp with rfl | hp
      · simp only
        linarith [not_lt.mp hsurv]
      · exact h p (List.mem_cons_of_mem _ hp)

theorem popStep_keys_nodup (l : List (String × ℚ)) (a : ℚ)
    (h : (l.map Prod.fst).Nodup) : ((popStep l a).map Prod.fst).Nodup := by
  match l with
  | [] => simp [popStep]
  | (name, v) :: rest =>
    rw [popStep]
    split
    · exact (List.nodup_cons.mp (by simpa using h)).2
    · simpa using h

theorem popStep_mem_tail (n : String) (v : ℚ) (rest : List (String × ℚ)) (a : ℚ)
    (f : String) (d : ℚ) (h : (f, d) ∈ rest) : (f, d) ∈ popStep ((n, v) :: rest) a := by
  rw [popStep]
  split
  · exact h
  · exact List.mem_cons_of_mem _ h

theorem popStep_head_mem (n : String) (v : ℚ) (rest : List (String × ℚ)) (a : ℚ)
    (hsurv : ¬ (v - a < 1/100)) : (n, v - a) ∈ popStep ((n, v) :: rest) a := by
  rw [popStep, if_neg hsurv]
  simp

theorem popStep_sum_upper (n : String) (v : ℚ) (rest : List (String × ℚ)) (a : ℚ)
    (hva : a ≤ v) :
    ((popStep ((n, v) :: rest) a).map Prod.snd).sum
      ≤ ((((n, v) :: rest)).map Prod.snd).sum - a := by
  rw [popStep]
  split
  · simp only [List.map_cons, List.sum_cons]
    linarith
  · simp only [List.map_cons, List.sum_cons]
    linarith

theorem popStep_sum_lower (n : String) (v : ℚ) (rest : List (String × ℚ)) (a : ℚ) :
    ((((n, v) :: rest)).map Prod.snd).sum - a - 1/100
      ≤ ((popStep ((n, v) :: rest) a).map Prod.snd).sum := by
  rw [popStep]
  split
  · next hpop =>
    simp only [List.map_cons, List.sum_cons]
    linarith
  · simp only [List.map_cons, List.sum_cons]
    linarith

theorem settleAux_paidBy_le (fuel : ℕ) : ∀ (ds cs : List (String × ℚ)) (f : String) (d : ℚ),
    (ds.map Prod.fst).Nodup → (∀ p ∈ ds, 0 ≤ p.2) → (∀ p ∈ cs, 0 ≤ p.2) →
    (f, d) ∈ ds → paidBy f (settleAux fuel ds cs) ≤ d := by
  induction fuel with
  | zero =>
    intro ds cs f d _ hds _ hmem
    have : (0 : ℚ) ≤ d := hds (f, d) hmem
    simpa [settleAux, paidBy] using this
  | succ fuel ih =>
    intro ds cs f d hnodup hds hcs hmem
    rcases ds with _ | ⟨⟨D, d0⟩, ds'⟩
    · simp at hmem
    · rcases cs with _ | ⟨⟨C, c0⟩, cs'⟩
      · have : (0 : ℚ) ≤ d := hds (f, d) hmem
        simpa [settleAux, paidBy] using this
      · rw [settleAux]
        have hd00 : (0 : ℚ) ≤ d0 := hds (D, d0) (by simp)
        have hc00 : (0 : ℚ) ≤ c0 := hcs (C, c0) (by simp)
        have ha0 : (0 : ℚ) ≤ min d0 c0 := le_min hd00 hc00
        have had : min d0 c0 ≤ d0 := min_le_left _ _
        have hnice := List.nodup_cons.mp
          (show (D :: ds'.map Prod.fst).Nodup by simpa using hnodup)
        have hDnotin : D ∉ ds'.map Prod.fst := hnice.1
        have hdsN_nodup : ((popStep ((D, d0) :: ds') (min d0 c0)).map Prod.fst).Nodup :=
          popStep_keys_nodup _ _ (by simpa using hnodup)
        have hdsN_nonneg := popStep_values_nonneg ((D, d0) :: ds') (min d0 c0) hds
        have hcsN_nonneg := popStep_values_nonneg ((C, c0) :: cs') (min d0 c0) hcs
        rcases List.mem_cons.mp hmem with heq | hmemtail
        · injection heq with h1 h2
          subst h1
          subst h2
          by_cases hpop : d - min d c0 < 1/100
          · have hdsN : popStep ((f, d) :: ds') (min d c0) = ds' := by
              rw [popStep, if_pos hpop]
            rw [hdsN]
            have hpaid0 : paidBy f (settleAux fuel ds' (popStep ((C, c0) :: cs') (min d c0))) = 0 := by
              apply paidBy_eq_zero
              intro t ht
              have hmemt := (settleAux_mem fuel _ _ t ht).1
              intro hcontra
              rw [hcontra] at hmemt
              exact hDnotin hmemt
            split
            · rw [paidBy_cons, hpaid0, if_pos rfl]
              linarith
            · rw [hpaid0]
              linarith
          · have hdsN : popStep ((f, d) :: ds') (min d c0) = (f, d - min d c0) :: ds' := by
              rw [popStep, if_neg hpop]
            rw [hdsN]
            have hsurv : (0 : ℚ) ≤ d - min d c0 := by linarith [not_lt.mp hpop]
            have hrec := ih ((f, d - min d c0) :: ds') (popStep ((C, c0) :: cs') (min d c0))
              f (d - min d c0) (by simpa using hnodup)
              (by
                intro p hp
                rcases List.mem_cons.mp hp with rfl | hp
                · exact hsurv
                · exact hds p (List.mem_cons_of_mem _ hp))
              hcsN_nonneg (by simp)
            split
            · rw [paidBy_cons, if_pos rfl]
              linarith
            · linarith
        · have hfne : D ≠ f := by
            intro hDf
            subst hDf
            exact hDnotin (List.mem_map_of_mem Prod.fst hmemtail)
          have hmemN : (f, d) ∈ popStep ((D, d0) :: ds') (min d0 c0) :=
            popStep_mem_tail _ _ _ _ _ _ hmemtail
          have hrec := ih _ _ f d hdsN_nodup hdsN_nonneg hcsN_nonneg hmemN
          split
          · rw [paidBy_cons, if_neg hfne]
            linarith
          · exact hrec

theorem settleAux_receivedBy_le (fuel : ℕ) : ∀ (ds cs : List (String × ℚ)) (f : String) (c : ℚ),
    (cs.map Prod.fst).Nodup → (∀ p ∈ ds, 0 ≤ p.2) → (∀ p ∈ cs, 0 ≤ p.2) →
    (f, c) ∈ cs → receivedBy f (settleAux fuel ds cs) ≤ c := by
  induction fuel with
  | zero =>
    intro ds cs f c _ _ hcs hmem
    have : (0 : ℚ) ≤ c := hcs (f, c) hmem
    simpa [settleAux, receivedBy] using this
  | succ fuel ih =>
    intro ds cs f c hnodup hds hcs hmem
    rcases ds with _ | ⟨⟨D, d0⟩, ds'⟩
    · have : (0 : ℚ) ≤ c := hcs (f, c) hmem
      simpa [settleAux, receivedBy] using this
    · rcases cs with _ | ⟨⟨C, c0⟩, cs'⟩
      · simp at hmem
      · rw [settleAux]
        have hd00 : (0 : ℚ) ≤ d0 := hds (D, d0) (by simp)
        have hc00 : (0 : ℚ) ≤ c0 := hcs (C, c0) (by simp)
        have ha0 : (0 : ℚ) ≤ min d0 c0 := le_min hd00 hc00
        have hac : min d0 c0 ≤ c0 := min_le_right _ _
        have hnice := List.nodup_cons.mp
          (show (C :: cs'.map Prod.fst).Nodup by simpa using hnodup)
        have hCnotin : C ∉ cs'.map Prod.fst := hnice.1
        have hcsN_nodup : ((popStep ((C, c0) :: cs') (min d0 c0)).map Prod.fst).Nodup :=
          popStep_keys_nodup _ _ (by simpa using hnodup)
        have hdsN_nonneg := popStep_values_nonneg ((D, d0) :: ds') (min d0 c0) hds
        have hcsN_nonneg := popStep_values_nonneg ((C, c0) :: cs') (min d0 c0) hcs
        rcases List.mem_cons.mp hmem with heq | hmemtail
        · injection heq with h1 h2
          subst h1
          subst h2
          by_cases hpop : c - min d0 c < 1/100
          · have hcsN : popStep ((f, c) :: cs') (min d0 c) = cs' := by
              rw [popStep, if_pos hpop]
            rw [hcsN]
            have hrecv0 : receivedBy f (settleAux fuel (popStep ((D, d0) :: ds') (min d0 c)) cs') = 0 := by
              apply receivedBy_eq_zero
              intro t ht
              have hmemt := (settleAux_mem fuel _ _ t ht).2.1
              intro hcontra
              rw [hcontra] at hmemt
              exact hCnotin hmemt
            split
            · rw [receivedBy_cons, hrecv0, if_pos rfl]
              linarith
            · rw [hrecv0]
              linarith
          · have hcsN : popStep ((f, c) :: cs') (min d0 c) = (f, c - min d0 c) :: cs' := by
              rw [popStep, if_neg hpop]
            rw [hcsN]
            have hsurv : (0 : ℚ) ≤ c - min d0 c := by linarith [not_lt.mp hpop]
            have hrec := ih (popStep ((D, d0) :: ds') (min d0 c)) ((f, c - min d0 c) :: cs')
              f (c - min d0 c) (by simpa using hnodup) hdsN_nonneg
              (by
                intro p hp
                rcases List.mem_cons.mp hp with rfl | hp
                · exact hsurv
                · exact hcs p (List.mem_cons_of_mem _ hp))
              (by simp)
            split
            · rw [receivedBy_cons, if_pos rfl]
              linarith
            · linarith
        · have hfne : C ≠ f := by
            intro hCf
            subst hCf
            exact hCnotin (List.mem_map_of_mem Prod.fst hmemtail)
          have hmemN : (f, c) ∈ popStep ((C, c0) :: cs') (min d0 c0) :=
            popStep_mem_tail _ _ _ _ _ _ hmemtail
          have hrec := ih _ _ f c hcsN_nodup hdsN_nonneg hcsN_nonneg hmemN
          split
          · rw [receivedBy_cons, if_neg hfne]
            linarith
          · exact hrec

/-- Deficit bound for a debtor: after the greedy loop runs, the debt left
unpaid by transfers is at most one tolerance unit per matching round plus the
initial excess of total debt over total credit.  The loop can only strand
debt through sub-tolerance pops, sub-tolerance non-emitted matches, and
exhaustion of the creditor list. -/
theorem settleAux_debtor_deficit (fuel : ℕ) : ∀ (ds cs : List (String × ℚ)) (f : String) (d : ℚ),
    ds.length + cs.length ≤ fuel →
    (ds.map Prod.fst).Nodup →
    (∀ p ∈ ds, 0 ≤ p.2) → (∀ p ∈ cs, 0 ≤ p.2) →
    (f, d) ∈ ds →
    d - paidBy f (settleAux fuel ds cs)
      ≤ (1/100) * (1 + 2 * ((ds.length + cs.length : ℕ) : ℚ))
        + max 0 ((ds.map Prod.snd).sum - (cs.map Prod.snd).sum) := by
  induction fuel with
  | zero =>
    intro ds cs f d hfuel _ _ _ hmem
    rcases ds with _ | ⟨p, ds'⟩
    · simp at hmem
    · simp at hfuel
  | succ fuel ih =>
    intro ds cs f d hfuel hnodup hds hcs hmem
    rcases cs with _ | ⟨⟨C, c0⟩, cs'⟩
    · rcases ds with _ | ⟨⟨D, d0⟩, ds'⟩
      · simp at hmem
      · have hres : settleAux (fuel + 1) ((D, d0) :: ds') [] = [] := rfl
        rw [hres]
        have hvals : ∀ x ∈ (((D, d0) :: ds').map Prod.snd), (0 : ℚ) ≤ x := by
          intro x hx
          rcases List.mem_map.mp hx with ⟨p, hp, hpx⟩
          rw [← hpx]
          exact hds p hp
        have hdsum : d ≤ (((D, d0) :: ds').map Prod.snd).sum :=
          List.single_le_sum hvals d (List.mem_map_of_mem Prod.snd hmem)
        have hmax : (((D, d0) :: ds').map Prod.snd).sum
            ≤ max 0 ((((D, d0) :: ds').map Prod.snd).sum
              - (([] : List (String × ℚ)).map Prod.snd).sum) := by
          simp only [List.map_nil, List.sum_nil, sub_zero]
          exact le_max_right _ _
        have hlen0 : (0 : ℚ) ≤ ((((D, d0) :: ds').length + ([] : List (String × ℚ)).length : ℕ) : ℚ) :=
          Nat.cast_nonneg _
        have hpaid : paidBy f ([] : List (String × String × ℚ)) = 0 := rfl
        rw [hpaid]
        linarith
    · rcases ds with _ | ⟨⟨D, d0⟩, ds'⟩
      · simp at hmem
      · rw [settleAux]
        have hd00 : (0 : ℚ) ≤ d0 := hds (D, d0) (by simp)
        have hc00 : (0 : ℚ) ≤ c0 := hcs (C, c0) (by simp)
        have ha0 : (0 : ℚ) ≤ min d0 c0 := le_min hd00 hc00
        have had : min d0 c0 ≤ d0 := min_le_left _ _
        have hac : min d0 c0 ≤ c0 := min_le_right _ _
        have hnice := List.nodup_cons.mp
          (show (D :: ds'.map Prod.fst).Nodup by simpa using hnodup)
        have hDnotin : D ∉ ds'.map Prod.fst := hnice.1
        have hdsN_nodup : ((popStep ((D, d0) :: ds') (min d0 c0)).map Prod.fst).Nodup :=
          popStep_keys_nodup _ _ (by simpa using hnodup)
        have hdsN_nonneg := popStep_values_nonneg ((D, d0) :: ds') (min d0 c0) hds
        have hcsN_nonneg := popStep_values_nonneg ((C, c0) :: cs') (min d0 c0) hcs
        have hdec := settle_step_decrease D d0 ds' C c0 cs'
        have hfuelN : (popStep ((D, d0) :: ds') (min d0 c0)).length
            + (popStep ((C, c0) :: cs') (min d0 c0)).length ≤ fuel := by omega
        have hdec1 : (popStep ((D, d0) :: ds') (min d0 c0)).length
            + (popStep ((C, c0) :: cs') (min d0 c0)).length + 1
            ≤ ((D, d0) :: ds').length + ((C, c0) :: cs').length := by omega
        have hcastlen : (((popStep ((D, d0) :: ds') (min d0 c0)).length
            + (popStep ((C, c0) :: cs') (min d0 c0)).length : ℕ) : ℚ) + 1
            ≤ ((((D, d0) :: ds').length + ((C, c0) :: cs').length : ℕ) : ℚ) := by
          exact_mod_cast hdec1
        have hlen2n : 2 ≤ ((D, d0) :: ds').length + ((C, c0) :: cs').length := by
          simp only [List.length_cons]
          omega
        have hlen2 : (2 : ℚ) ≤ ((((D, d0) :: ds').length + ((C, c0) :: cs').length : ℕ) : ℚ) := by
          exact_mod_cast hlen2n
        have hsum_ds_up := popStep_sum_upper D d0 ds' (min d0 c0) had
        have hsum_cs_low := popStep_sum_lower C c0 cs' (min d0 c0)
        have hmaxΔ : max 0 (((popStep ((D, d0) :: ds') (min d0 c0)).map Prod.snd).sum
              - ((popStep ((C, c0) :: cs') (min d0 c0)).map Prod.snd).sum)
            ≤ max 0 ((((D, d0) :: ds').map Prod.snd).sum
              - (((C, c0) :: cs').map Prod.snd).sum) + 1/100 := by
          apply max_le
          · have h1 : (0 : ℚ) ≤ max 0 ((((D, d0) :: ds').map Prod.snd).sum
                - (((C, c0) :: cs').map Prod.snd).sum) := le_max_left _ _
            linarith
          · have h2 : (((D, d0) :: ds').map Prod.snd).sum - (((C, c0) :: cs').map Prod.snd).sum
                ≤ max 0 ((((D, d0) :: ds').map Prod.snd).sum
                  - (((C, c0) :: cs').map Prod.snd).sum) := le_max_right _ _
            linarith
        have hmax0 : (0 : ℚ) ≤ max 0 ((((D, d0) :: ds').map Prod.snd).sum
            - (((C, c0) :: cs').map Prod.snd).sum) := le_max_left _ _
        rcases List.mem_cons.mp hmem with heq | hmemtail
        · injection heq with h1 h2
          subst h1
          subst h2
          by_cases hpop : d - min d c0 < 1/100
          · have hdsN : popStep ((f, d) :: ds') (min d c0) = ds' := by
              rw [popStep, if_pos hpop]
            rw [hdsN]
            have hpaid0 : paidBy f (settleAux fuel ds' (popStep ((C, c0) :: cs') (min d c0))) = 0 := by
              apply paidBy_eq_zero
              intro t ht
              have hmemt := (settleAux_mem fuel _ _ t ht).1
              intro hcontra
              rw [hcontra] at hmemt
              exact hDnotin hmemt
            split
            · next hemit =>
              rw [paidBy_cons, hpaid0, if_pos rfl]
              linarith
            · next hnoemit =>
              rw [hpaid0]
              have haa : min d c0 ≤ 1/100 := not_lt.mp hnoemit
              linarith
          · have hdsN : popStep ((f, d) :: ds') (min d c0) = (f, d - min d c0) :: ds' := by
              rw [popStep, if_neg hpop]
            have hane : min d c0 ≠ d := by
              intro h
              rw [h] at hpop
              simp only [sub_self] at hpop
              exact hpop (by norm_num)
            have hcase := min_cases d c0
            have hals : min d c0 = c0 ∧ c0 < d := by
              rcases hcase with ⟨h1, _⟩ | h
              · exact absurd h1 hane
              · exact ⟨h.1, h.2⟩
            have hcsN : popStep ((C, c0) :: cs') (min d c0) = cs' := by
              rw [popStep, if_pos (by rw [hals.1, sub_self]; norm_num)]
            rw [hdsN, hcsN]
            have hsurv : (0 : ℚ) ≤ d - min d c0 := by linarith [not_lt.mp hpop]
            rw [hdsN, hcsN] at hfuelN hcastlen hmaxΔ
            have hrec := ih ((f, d - min d c0) :: ds') cs' f (d - min d c0) hfuelN
              (by simpa using hnodup)
              (by
                intro p hp
                rcases List.mem_cons.mp hp with rfl | hp
                · exact hsurv
                · exact hds p (List.mem_cons_of_mem _ hp))
              (fun p hp => hcs p (List.mem_cons_of_mem _ hp))
              (by simp)
            split
            · next hemit =>
              rw [paidBy_cons, if_pos rfl]
              linarith
            · next hnoemit =>
              have haa : min d c0 ≤ 1/100 := not_lt.mp hnoemit
              linarith
        · have hfne : D ≠ f := by
            intro hDf
            subst hDf
            exact hDnotin (List.mem_map_of_mem Prod.fst hmemtail)
          have hmemN : (f, d) ∈ popStep ((D, d0) :: ds') (min d0 c0) :=
            popStep_mem_tail _ _ _ _ _ _ hmemtail
          have hrec := ih _ _ f d hfuelN hdsN_nodup hdsN_nonneg hcsN_nonneg hmemN
          split
          · next hemit =>
            rw [paidBy_cons, if_neg hfne]
            linarith
          · next hnoemit =>
            linarith

/-- Surplus bound for a creditor, the mirror image of the debtor bound. -/
theorem settleAux_creditor_surplus (fuel : ℕ) : ∀ (ds cs : List (String × ℚ)) (f : String) (c : ℚ),
    ds.length + cs.length ≤ fuel →
    (cs.map Prod.fst).Nodup →
    (∀ p ∈ ds, 0 ≤ p.2) → (∀ p ∈ cs, 0 ≤ p.2) →
    (f, c) ∈ cs →
    c - receivedBy f (settleAux fuel ds cs)
      ≤ (1/100) * (1 + 2 * ((ds.length + cs.length : ℕ) : ℚ))
        + max 0 ((cs.map Prod.snd).sum - (ds.map Prod.snd).sum) := by
  induction fuel with
  | zero =>
    intro ds cs f c hfuel _ _ _ hmem
    rcases cs with _ | ⟨p, cs'⟩
    · simp at hmem
    · simp at hfuel
  | succ fuel ih =>
    intro ds cs f c hfuel hnodup hds hcs hmem
    rcases ds with _ | ⟨⟨D, d0⟩, ds'⟩
    · rcases cs with _ | ⟨⟨C, c0⟩, cs'⟩
      · simp at hmem
      · have hres : settleAux (fuel + 1) [] ((C, c0) :: cs') = [] := rfl
        rw [hres]
        have hvals : ∀ x ∈ (((C, c0) :: cs').map Prod.snd), (0 : ℚ) ≤ x := by
          intro x hx
          rcases List.mem_map.mp hx with ⟨p, hp, hpx⟩
          rw [← hpx]
          exact hcs p hp
        have hcsum : c ≤ (((C, c0) :: cs').map Prod.snd).sum :=
          List.single_le_sum hvals c (List.mem_map_of_mem Prod.snd hmem)
        have hmax : (((C, c0) :: cs').map Prod.snd).sum
            ≤ max 0 ((((C, c0) :: cs').map Prod.snd).sum
              - (([] : List (String × ℚ)).map Prod.snd).sum) := by
          simp only [List.map_nil, List.sum_nil, sub_zero]
          exact le_max_right _ _
        have hlen0 : (0 : ℚ) ≤ ((([] : List (String × ℚ)).length + ((C, c0) :: cs').length : ℕ) : ℚ) :=
          Nat.cast_nonneg _
        have hrecv : receivedBy f ([] : List (String × String × ℚ)) = 0 := rfl
        rw [hrecv]
        linarith
    · rcases cs with _ | ⟨⟨C, c0⟩, cs'⟩
      · simp at hmem
      · rw [settleAux]
        have hd00 : (0 : ℚ) ≤ d0 := hds (D, d0) (by simp)
        have hc00 : (0 : ℚ) ≤ c0 := hcs (C, c0) (by simp)
        have ha0 : (0 : ℚ) ≤ min d0 c0 := le_min hd00 hc00
        have had : min d0 c0 ≤ d0 := min_le_left _ _
        have hac : min d0 c0 ≤ c0 := min_le_right _ _
        have hnice := List.nodup_cons.mp
          (show (C :: cs'.map Prod.fst).Nodup by simpa using hnodup)
        have hCnotin : C ∉ cs'.map Prod.fst := hnice.1
        have hcsN_nodup : ((popStep ((C, c0) :: cs') (min d0 c0)).map Prod.fst).Nodup :=
          popStep_keys_nodup _ _ (by simpa using hnodup)
        have hdsN_nonneg := popStep_values_nonneg ((D, d0) :: ds') (min d0 c0) hds
        have hcsN_nonneg := popStep_values_nonneg ((C, c0) :: cs') (min d0 c0) hcs
        have hdec := settle_step_decrease D d0 ds' C c0 cs'
        have hfuelN : (popStep ((D, d0) :: ds') (min d0 c0)).length
            + (popStep ((C, c0) :: cs') (min d0 c0)).length ≤ fuel := by omega
        have hdec1 : (popStep ((D, d0) :: ds') (min d0 c0)).length
            + (popStep ((C, c0) :: cs') (min d0 c0)).length + 1
            ≤ ((D, d0) :: ds').length + ((C, c0) :: cs').length := by omega
        have hcastlen : (((popStep ((D, d0) :: ds') (min d0 c0)).length
            + (popStep ((C, c0) :: cs') (min d0 c0)).length : ℕ) : ℚ) + 1
            ≤ ((((D, d0) :: ds').length + ((C, c0) :: cs').length : ℕ) : ℚ) := by
          exact_mod_cast hdec1
        have hlen2n : 2 ≤ ((D, d0) :: ds').length + ((C, c0) :: cs').length := by
          simp only [List.length_cons]
          omega
        have hlen2 : (2 : ℚ) ≤ ((((D, d0) :: ds').length + ((C, c0) :: cs').length : ℕ) : ℚ) := by
          exact_mod_cast hlen2n
        have hsum_cs_up := popStep_sum_upper C c0 cs' (min d0 c0) hac
        have hsum_ds_low := popStep_sum_lower D d0 ds' (min d0 c0)
        have hmaxΔ : max 0 (((popStep ((C, c0) :: cs') (min d0 c0)).map Prod.snd).sum
              - ((popStep ((D, d0) :: ds') (min d0 c0)).map Prod.snd).sum)
            ≤ max 0 ((((C, c0) :: cs').map Prod.snd).sum
              - (((D, d0) :: ds').map Prod.snd).sum) + 1/100 := by
          apply max_le
          · have h1 : (0 : ℚ) ≤ max 0 ((((C, c0) :: cs').map Prod.snd).sum
                - (((D, d0) :: ds').map Prod.snd).sum) := le_max_left _ _
            linarith
          · have h2 : (((C, c0) :: cs').map Prod.snd).sum - (((D, d0) :: ds').map Prod.snd).sum
                ≤ max 0 ((((C, c0) :: cs').map Prod.snd).sum
                  - (((D, d0) :: ds').map Prod.snd).sum) := le_max_right _ _
            linarith
        have hmax0 : (0 : ℚ) ≤ max 0 ((((C, c0) :: cs').map Prod.snd).sum
            - (((D, d0) :: ds').map Prod.snd).sum) := le_max_left _ _
        rcases List.mem_cons.mp hmem with heq | hmemtail
        · injection heq with h1 h2
          subst h1
          subst h2
          by_cases hpop : c - min d0 c < 1/100
          · have hcsN : popStep ((f, c) :: cs') (min d0 c) = cs' := by
              rw [popStep, if_pos hpop]
            rw [hcsN]
            have hrecv0 : receivedBy f (settleAux fuel (popStep ((D, d0) :: ds') (min d0 c)) cs') = 0 := by
              apply receivedBy_eq_zero
              intro t ht
              have hmemt := (settleAux_mem fuel _ _ t ht).2.1
              intro hcontra
              rw [hcontra] at hmemt
              exact hCnotin hmemt
            split
            · next hemit =>
              rw [receivedBy_cons, hrecv0, if_pos rfl]
              linarith
            · next hnoemit =>
              rw [hrecv0]
              have haa : min d0 c ≤ 1/100 := not_lt.mp hnoemit
              linarith
          · have hcsN : popStep ((f, c) :: cs') (min d0 c) = (f, c - min d0 c) :: cs' := by
              rw [popStep, if_neg hpop]
            have hane : min d0 c ≠ c := by
              intro h
              rw [h] at hpop
              simp only [sub_self] at hpop
              exact hpop (by norm_num)
            have hals : min d0 c = d0 ∧ d0 ≤ c := by
              rcases min_cases d0 c with h | ⟨h1, _⟩
              · exact ⟨h.1, h.2⟩
              · exact absurd h1 hane
            have hdsN : popStep ((D, d0) :: ds') (min d0 c) = ds' := by
              rw [popStep, if_pos (by rw [hals.1, sub_self]; norm_num)]
            rw [hdsN, hcsN]
            have hsurv : (0 : ℚ) ≤ c - min d0 c := by linarith [not_lt.mp hpop]
            rw [hdsN, hcsN] at hfuelN hcastlen hmaxΔ
            have hrec := ih ds' ((f, c - min d0 c) :: cs') f (c - min d0 c) hfuelN
              (by simpa using hnodup)
              (fun p hp => hds p (List.mem_cons_of_mem _ hp))
              (by
                intro p hp
                rcases List.mem_cons.mp hp with rfl | hp
                · exact hsurv
                · exact hcs p (List.mem_cons_of_mem _ hp))
              (by simp)
            split
            · next hemit =>
              rw [receivedBy_cons, if_pos rfl]
              linarith
            · next hnoemit =>
              have haa : min d0 c ≤ 1/100 := not_lt.mp hnoemit
              linarith
        · have hfne : C ≠ f := by
            intro hCf
            subst hCf
            exact hCnotin (List.mem_map_of_mem Prod.fst hmemtail)
          have hmemN : (f, c) ∈ popStep ((C, c0) :: cs') (min d0 c0) :=
            popStep_mem_tail _ _ _ _ _ _ hmemtail
          have hrec := ih _ _ f c hfuelN hcsN_nodup hdsN_nonneg hcsN_nonneg hmemN
          split
          · next hemit =>
            rw [receivedBy_cons, if_neg hfne]
            linarith
          · next hnoemit =>
            linarith

theorem list_sum_map_neg (l : List (String × ℚ)) :
    ((l.map (fun p => (p.1, -p.2))).map Prod.snd).sum = -((l.map Prod.snd).sum) := by
  induction l with
  | nil => simp
  | cons p l ih =>
    simp only [List.map_cons, List.sum_cons, ih]
    ring

theorem nodup_keys_unique (l : List (String × ℚ)) (f : String) (a b : ℚ) :
    (l.map Prod.fst).Nodup → (f, a) ∈ l → (f, b) ∈ l → a = b := by
  induction l with
  | nil =>
    intro _ ha _
    simp at ha
  | cons p l ih =>
    intro h ha hb
    rw [List.map_cons, List.nodup_cons] at h
    have hcons := h
    rcases List.mem_cons.mp ha with ha1 | ha2 <;> rcases List.mem_cons.mp hb with hb1 | hb2
    · rw [← ha1] at hb1
      injection hb1 with _ hab
      exact hab.symm
    · exfalso
      apply hcons.1
      have hf : p.1 = f := by rw [← ha1]
      rw [hf]
      exact List.mem_map_of_mem Prod.fst hb2
    · exfalso
      apply hcons.1
      have hf : p.1 = f := by rw [← hb1]
      rw [hf]
      exact List.mem_map_of_mem Prod.fst ha2
    · exact ih hcons.2 ha2 hb2

theorem filter_cons_pos (q : (String × ℚ) → Prop) [DecidablePred q]
    (p : String × ℚ) (bals : List (String × ℚ)) (h : q p) :
    List.filter (fun x => decide (q x)) (p :: bals)
      = p :: List.filter (fun x => decide (q x)) bals := by
  simp [List.filter_cons, h]

theorem filter_cons_neg (q : (String × ℚ) → Prop) [DecidablePred q]
    (p : String × ℚ) (bals : List (String × ℚ)) (h : ¬ q p) :
    List.filter (fun x => decide (q x)) (p :: bals)
      = List.filter (fun x => decide (q x)) bals := by
  simp [List.filter_cons, h]

theorem balances_three_way_sum (bals : List (String × ℚ)) :
    ((bals.filter (fun p => p.2 < -(1/100))).map Prod.snd).sum
      + ((bals.filter (fun p => (1/100 : ℚ) < p.2)).map Prod.snd).sum
      + ((bals.filter (fun p => -(1/100) ≤ p.2 ∧ p.2 ≤ (1/100 : ℚ))).map Prod.snd).sum
      = (bals.map Prod.snd).sum := by
  induction bals with
  | nil => simp
  | cons p bals ih =>
    by_cases h1 : p.2 < -(1/100)
    · have h2 : ¬((1/100 : ℚ) < p.2) := by linarith
      have h3 : ¬(-(1/100) ≤ p.2 ∧ p.2 ≤ (1/100 : ℚ)) := by
        rintro ⟨ha, hb⟩
        linarith
      rw [filter_cons_pos _ p bals h1, filter_cons_neg _ p bals h2, filter_cons_neg _ p bals h3]
      simp only [List.map_cons, List.sum_cons]
      linarith
    · by_cases h2 : (1/100 : ℚ) < p.2
      · have h3 : ¬(-(1/100) ≤ p.2 ∧ p.2 ≤ (1/100 : ℚ)) := by
          rintro ⟨ha, hb⟩
          linarith
        rw [filter_cons_neg _ p bals h1, filter_cons_pos _ p bals h2, filter_cons_neg _ p bals h3]
        simp only [List.map_cons, List.sum_cons]
        linarith
      · have h3 : -(1/100) ≤ p.2 ∧ p.2 ≤ (1/100 : ℚ) := ⟨by linarith, by linarith⟩
        rw [filter_cons_neg _ p bals h1, filter_cons_neg _ p bals h2, filter_cons_pos _ p bals h3]
        simp only [List.map_cons, List.sum_cons]
        linarith

theorem balances_three_way_length (bals : List (String × ℚ)) :
    (bals.filter (fun p => p.2 < -(1/100))).length
      + (bals.filter (fun p => (1/100 : ℚ) < p.2)).length
      + (bals.filter (fun p => -(1/100) ≤ p.2 ∧ p.2 ≤ (1/100 : ℚ))).length
      = bals.length := by
  induction bals with
  | nil => simp
  | cons p bals ih =>
    by_cases h1 : p.2 < -(1/100)
    · have h2 : ¬((1/100 : ℚ) < p.2) := by linarith
      have h3 : ¬(-(1/100) ≤ p.2 ∧ p.2 ≤ (1/100 : ℚ)) := by
        rintro ⟨ha, hb⟩
        linarith
      rw [filter_cons_pos _ p bals h1, filter_cons_neg _ p bals h2, filter_cons_neg _ p bals h3]
      simp only [List.length_cons]
      omega
    · by_cases h2 : (1/100 : ℚ) < p.2
      · have h3 : ¬(-(1/100) ≤ p.2 ∧ p.2 ≤ (1/100 : ℚ)) := by
          rintro ⟨ha, hb⟩
          linarith
        rw [filter_cons_neg _ p bals h1, filter_cons_pos _ p bals h2, filter_cons_neg _ p bals h3]
        simp only [List.length_cons]
        omega
      · have h3 : -(1/100) ≤ p.2 ∧ p.2 ≤ (1/100 : ℚ) := ⟨by linarith, by linarith⟩
        rw [filter_cons_neg _ p bals h1, filter_cons_neg _ p bals h2, filter_cons_pos _ p bals h3]
        simp only [List.length_cons]
        omega

theorem mid_sum_bound (bals : List (String × ℚ)) :
    |((bals.filter (fun p => -(1/100) ≤ p.2 ∧ p.2 ≤ (1/100 : ℚ))).map Prod.snd).sum|
      ≤ (1/100) * (((bals.filter (fun p => -(1/100) ≤ p.2 ∧ p.2 ≤ (1/100 : ℚ))).length : ℕ) : ℚ) := by
  induction bals with
  | nil => simp
  | cons p bals ih =>
    by_cases h3 : -(1/100) ≤ p.2 ∧ p.2 ≤ (1/100 : ℚ)
    · rw [filter_cons_pos _ p bals h3]
      simp only [List.map_cons, List.sum_cons, List.length_cons]
      have habs : |p.2| ≤ 1/100 := abs_le.mpr ⟨by linarith [h3.1], h3.2⟩
      have htri := abs_add p.2
        (((bals.filter (fun p => -(1/100) ≤ p.2 ∧ p.2 ≤ (1/100 : ℚ))).map Prod.snd).sum)
      push_cast
      push_cast at ih
      linarith
    · rw [filter_cons_neg _ p bals h3]
      exact ih

theorem mem_filter_prop {q : (String × ℚ) → Prop} [DecidablePred q]
    (bals : List (String × ℚ)) (p : String × ℚ) :
    p ∈ List.filter (fun x => decide (q x)) bals ↔ p ∈ bals ∧ q p := by
  simp [List.mem_filter]

theorem map_fst_negmap (l : List (String × ℚ)) :
    (l.map (fun p => (p.1, -p.2))).map Prod.fst = l.map Prod.fst := by
  rw [List.map_map]
  exact List.map_congr_left (fun a ha => rfl)

/-- Master bound for the settling application of the emitted transfers: for a
balance mapping with distinct family names whose balances sum to zero, paying
out the transfers (payer up, payee down) leaves every family within
`0.01 * (2n + 1)` of zero, where `n` is the number of families. -/
theorem calculate_settlements_bound (bals : List (String × ℚ))
    (hnodup : (bals.map Prod.fst).Nodup)
    (hzero : (bals.map Prod.snd).sum = 0) :
    ∀ f b, (f, b) ∈ bals →
      |b + paidBy f (calculate_settlements bals) - receivedBy f (calculate_settlements bals)|
        ≤ (1/100) * (2 * (bals.length : ℚ) + 1) := by
  intro f b hfb
  unfold calculate_settlements
  dsimp only
  set DS := List.insertionSort sortKeyLe
    ((bals.filter (fun p => p.2 < -(1/100))).map (fun p => (p.1, -p.2))) with hDS
  set CS := List.insertionSort sortKeyLe
    (bals.filter (fun p => (1/100 : ℚ) < p.2)) with hCS
  have hpermD : List.Perm DS ((bals.filter (fun p => p.2 < -(1/100))).map (fun p => (p.1, -p.2))) :=
    List.perm_insertionSort _ _
  have hpermC : List.Perm CS (bals.filter (fun p => (1/100 : ℚ) < p.2)) :=
    List.perm_insertionSort _ _
  have hDSnames : ∀ x, x ∈ DS.map Prod.fst ↔ x ∈ (bals.filter (fun p => p.2 < -(1/100))).map Prod.fst := by
    intro x
    rw [(hpermD.map Prod.fst).mem_iff, map_fst_negmap]
  have hCSnames : ∀ x, x ∈ CS.map Prod.fst ↔ x ∈ (bals.filter (fun p => (1/100 : ℚ) < p.2)).map Prod.fst :=
    fun x => (hpermC.map Prod.fst).mem_iff
  have hfilterDnodup : ((bals.filter (fun p => p.2 < -(1/100))).map Prod.fst).Nodup :=
    ((List.filter_sublist bals).map Prod.fst).nodup hnodup
  have hfilterCnodup : ((bals.filter (fun p => (1/100 : ℚ) < p.2)).map Prod.fst).Nodup :=
    ((List.filter_sublist bals).map Prod.fst).nodup hnodup
  have hDSnodup : (DS.map Prod.fst).Nodup := by
    rw [(hpermD.map Prod.fst).nodup_iff, map_fst_negmap]
    exact hfilterDnodup
  have hCSnodup : (CS.map Prod.fst).Nodup := by
    rw [(hpermC.map Prod.fst).nodup_iff]
    exact hfilterCnodup
  have hDSvals : ∀ p ∈ DS, (0 : ℚ) ≤ p.2 := by
    intro p hp
    have hp' := hpermD.mem_iff.mp hp
    rcases List.mem_map.mp hp' with ⟨q, hq, hqp⟩
    have hq' := (mem_filter_prop bals q).mp hq
    rw [← hqp]
    simp only
    linarith [hq'.2]
  have hCSvals : ∀ p ∈ CS, (0 : ℚ) ≤ p.2 := by
    intro p hp
    have hp' := hpermC.mem_iff.mp hp
    have hq' := (mem_filter_prop bals p).mp hp'
    linarith [hq'.2]
  have hDSsum : (DS.map Prod.snd).sum
      = -(((bals.filter (fun p => p.2 < -(1/100))).map Prod.snd).sum) := by
    rw [(hpermD.map Prod.snd).sum_eq]
    exact list_sum_map_neg _
  have hCSsum : (CS.map Prod.snd).sum
      = ((bals.filter (fun p => (1/100 : ℚ) < p.2)).map Prod.snd).sum :=
    (hpermC.map Prod.snd).sum_eq
  have hDSlen : DS.length = (bals.filter (fun p => p.2 < -(1/100))).length := by
    rw [hpermD.length_eq, List.length_map]
  have hCSlen : CS.length = (bals.filter (fun p => (1/100 : ℚ) < p.2)).length :=
    hpermC.length_eq
  have h3sum := balances_three_way_sum bals
  have h3len := balances_three_way_length bals
  have hmid := mid_sum_bound bals
  have hΔ : (DS.map Prod.snd).sum - (CS.map Prod.snd).sum
      = ((bals.filter (fun p => -(1/100) ≤ p.2 ∧ p.2 ≤ (1/100 : ℚ))).map Prod.snd).sum := by
    rw [hDSsum, hCSsum]
    linarith
  have hΔ' : (CS.map Prod.snd).sum - (DS.map Prod.snd).sum
      = -(((bals.filter (fun p => -(1/100) ≤ p.2 ∧ p.2 ≤ (1/100 : ℚ))).map Prod.snd).sum) := by
    rw [hDSsum, hCSsum]
    linarith
  have hlenbound : 2 * ((DS.length + CS.length : ℕ) : ℚ)
      + (((bals.filter (fun p => -(1/100) ≤ p.2 ∧ p.2 ≤ (1/100 : ℚ))).length : ℕ) : ℚ)
      ≤ 2 * (bals.length : ℚ) := by
    have hn : 2 * (DS.length + CS.length)
        + (bals.filter (fun p => -(1/100) ≤ p.2 ∧ p.2 ≤ (1/100 : ℚ))).length
        ≤ 2 * bals.length := by
      rw [hDSlen, hCSlen]
      omega
    exact_mod_cast hn
  have hmaxD : max 0 ((DS.map Prod.snd).sum - (CS.map Prod.snd).sum)
      ≤ (1/100) * (((bals.filter (fun p => -(1/100) ≤ p.2 ∧ p.2 ≤ (1/100 : ℚ))).length : ℕ) : ℚ) := by
    apply max_le
    · positivity
    · rw [hΔ]
      exact le_trans (le_abs_self _) hmid
  have hmaxC : max 0 ((CS.map Prod.snd).sum - (DS.map Prod.snd).sum)
      ≤ (1/100) * (((bals.filter (fun p => -(1/100) ≤ p.2 ∧ p.2 ≤ (1/100 : ℚ))).length : ℕ) : ℚ) := by
    apply max_le
    · positivity
    · rw [hΔ']
      exact le_trans (neg_le_abs _) hmid
  have hn1 : (1 : ℚ) ≤ (bals.length : ℚ) := by
    have : 1 ≤ bals.length := List.length_pos.mpr (by rintro rfl; simp at hfb)
    exact_mod_cast this
  by_cases hb1 : b < -(1/100)
  · -- debtor
    have hmemD : (f, -b) ∈ DS := by
      apply hpermD.mem_iff.mpr
      apply List.mem_map.mpr
      exact ⟨(f, b), (mem_filter_prop bals (f, b)).mpr ⟨hfb, hb1⟩, rfl⟩
    have hnotC : f ∉ CS.map Prod.fst := by
      rw [hCSnames]
      intro hmem
      rcases List.mem_map.mp hmem with ⟨q, hq, hqf⟩
      have hq' := (mem_filter_prop bals q).mp hq
      have : b = q.2 := nodup_keys_unique bals f b q.2 hnodup hfb (by
        have hqeq : q = (f, q.2) := by
          rw [← hqf]
        rw [← hqeq]
        exact hq'.1)
      linarith [hq'.2]
    have hrecv0 : receivedBy f (settleAux (DS.length + CS.length) DS CS) = 0 := by
      apply receivedBy_eq_zero
      intro t ht
      have hmemt := (settleAux_mem _ _ _ t ht).2.1
      intro hcontra
      rw [hcontra] at hmemt
      exact hnotC hmemt
    have hpaidle := settleAux_paidBy_le (DS.length + CS.length) DS CS f (-b)
      hDSnodup hDSvals hCSvals hmemD
    have hdef := settleAux_debtor_deficit (DS.length + CS.length) DS CS f (-b)
      (le_refl _) hDSnodup hDSvals hCSvals hmemD
    rw [hrecv0]
    have habs : |b + paidBy f (settleAux (DS.length + CS.length) DS CS) - 0|
        = (-b) - paidBy f (settleAux (DS.length + CS.length) DS CS) := by
      rw [sub_zero, abs_of_nonpos (by linarith)]
      ring
    rw [habs]
    calc (-b) - paidBy f (settleAux (DS.length + CS.length) DS CS)
        ≤ (1/100) * (1 + 2 * ((DS.length + CS.length : ℕ) : ℚ))
          + max 0 ((DS.map Prod.snd).sum - (CS.map Prod.snd).sum) := hdef
      _ ≤ (1/100) * (2 * (bals.length : ℚ) + 1) := by
          have hc1 := hmaxD
          have hc2 := hlenbound
          push_cast at *
          linarith
  · by_cases hb2 : (1/100 : ℚ) < b
    · -- creditor
      have hmemC : (f, b) ∈ CS := by
        apply hpermC.mem_iff.mpr
        exact (mem_filter_prop bals (f, b)).mpr ⟨hfb, hb2⟩
      have hnotD : f ∉ DS.map Prod.fst := by
        rw [hDSnames]
        intro hmem
        rcases List.mem_map.mp hmem with ⟨q, hq, hqf⟩
        have hq' := (mem_filter_prop bals q).mp hq
        have : b = q.2 := nodup_keys_unique bals f b q.2 hnodup hfb (by
          have hqeq : q = (f, q.2) := by
            rw [← hqf]
          rw [← hqeq]
          exact hq'.1)
        linarith [hq'.2]
      have hpaid0 : paidBy f (settleAux (DS.length + CS.length) DS CS) = 0 := by
        apply paidBy_eq_zero
        intro t ht
        have hmemt := (settleAux_mem _ _ _ t ht).1
        intro hcontra
        rw [hcontra] at hmemt
        exact hnotD hmemt
      have hrecvle := settleAux_receivedBy_le (DS.length + CS.length) DS CS f b
        hCSnodup hDSvals hCSvals hmemC
      have hsur := settleAux_creditor_surplus (DS.length + CS.length) DS CS f b
        (le_refl _) hCSnodup hDSvals hCSvals hmemC
      rw [hpaid0]
      have habs : |b + 0 - receivedBy f (settleAux (DS.length + CS.length) DS CS)|
          = b - receivedBy f (settleAux (DS.length + CS.length) DS CS) := by
        rw [add_zero, abs_of_nonneg (by linarith)]
      rw [habs]
      calc b - receivedBy f (settleAux (DS.length + CS.length) DS CS)
          ≤ (1/100) * (1 + 2 * ((DS.length + CS.length : ℕ) : ℚ))
            + max 0 ((CS.map Prod.snd).sum - (DS.map Prod.snd).sum) := hsur
        _ ≤ (1/100) * (2 * (bals.length : ℚ) + 1) := by
            have hc1 := hmaxC
            have hc2 := hlenbound
            push_cast at *
            linarith
    · -- within tolerance: appears in neither list
      have hmidb : |b| ≤ 1/100 := abs_le.mpr ⟨by linarith [not_lt.mp hb1], not_lt.mp hb2⟩
      have hnotD : f ∉ DS.map Prod.fst := by
        rw [hDSnames]
        intro hmem
        rcases List.mem_map.mp hmem with ⟨q, hq, hqf⟩
        have hq' := (mem_filter_prop bals q).mp hq
        have : b = q.2 := nodup_keys_unique bals f b q.2 hnodup hfb (by
          have hqeq : q = (f, q.2) := by
            rw [← hqf]
          rw [← hqeq]
          exact hq'.1)
        have := not_lt.mp hb1
        linarith [hq'.2]
      have hnotC : f ∉ CS.map Prod.fst := by
        rw [hCSnames]
        intro hmem
        rcases List.mem_map.mp hmem with ⟨q, hq, hqf⟩
        have hq' := (mem_filter_prop bals q).mp hq
        have : b = q.2 := nodup_keys_unique bals f b q.2 hnodup hfb (by
          have hqeq : q = (f, q.2) := by
            rw [← hqf]
          rw [← hqeq]
          exact hq'.1)
        have := not_lt.mp hb2
        linarith [hq'.2]
      have hpaid0 : paidBy f (settleAux (DS.length + CS.length) DS CS) = 0 := by
        apply paidBy_eq_zero
        intro t ht
        have hmemt := (settleAux_mem _ _ _ t ht).1
        intro hcontra
        rw [hcontra] at hmemt
        exact hnotD hmemt
      have hrecv0 : receivedBy f (settleAux (DS.length + CS.length) DS CS) = 0 := by
        apply receivedBy_eq_zero
        intro t ht
        have hmemt := (settleAux_mem _ _ _ t ht).2.1
        intro hcontra
        rw [hcontra] at hmemt
        exact hnotC hmemt
      rw [hpaid0, hrecv0]
      simp only [add_zero, sub_zero]
      linarith [hmidb, hn1]

theorem sortKeyLe_iff_specOrder (p q : String × ℚ) : sortKeyLe p q ↔ specOrder p q := by
  unfold sortKeyLe specOrder
  rw [neg_lt_neg_iff, neg_inj]

theorem orderedInsert_congr (r s : (String × ℚ) → (String × ℚ) → Prop)
    [DecidableRel r] [DecidableRel s] (hrs : ∀ a b, r a b ↔ s a b) (a : String × ℚ) :
    ∀ l, List.orderedInsert r a l = List.orderedInsert s a l := by
  intro l
  induction l with
  | nil => rfl
  | cons b l ih =>
    rw [List.orderedInsert, List.orderedInsert]
    by_cases h : r a b
    · rw [if_pos h, if_pos ((hrs a b).mp h)]
    · rw [if_neg h, if_neg (fun hs => h ((hrs a b).mpr hs)), ih]

theorem insertionSort_congr (r s : (String × ℚ) → (String × ℚ) → Prop)
    [DecidableRel r] [DecidableRel s] (hrs : ∀ a b, r a b ↔ s a b) :
    ∀ l, List.insertionSort r l = List.insertionSort s l := by
  intro l
  induction l with
  | nil => rfl
  | cons a l ih =>
    rw [List.insertionSort, List.insertionSort, ih, orderedInsert_congr r s hrs]

theorem specLoop_eq_settleAux (fuel : ℕ) : ∀ (ds cs : List (String × ℚ)),
    specLoop fuel ds cs = settleAux fuel ds cs := by
  induction fuel with
  | zero =>
    intro ds cs
    rfl
  | succ fuel ih =>
    intro ds cs
    rcases ds with _ | ⟨⟨D, d⟩, ds'⟩
    · rfl
    · rcases cs with _ | ⟨⟨C, c⟩, cs'⟩
      · rfl
      · rw [specLoop, settleAux, popStep, popStep, ih]
        split <;> simp

theorem calculate_settlements_eq_spec (bals : List (String × ℚ)) :
    calculate_settlements bals = specSettlementEngine bals := by
  unfold calculate_settlements specSettlementEngine
  rw [insertionSort_congr sortKeyLe specOrder sortKeyLe_iff_specOrder,
    insertionSort_congr sortKeyLe specOrder sortKeyLe_iff_specOrder,
    specLoop_eq_settleAux]

theorem two_way_filter_length (bals : List (String × ℚ)) :
    (bals.filter (fun p => p.2 < -(1/100))).length
      + (bals.filter (fun p => (1/100 : ℚ) < p.2)).length
      = (bals.filter (fun p => p.2 < -(1/100) ∨ (1/100 : ℚ) < p.2)).length := by
  induction bals with
  | nil => simp
  | cons p bals ih =>
    by_cases h1 : p.2 < -(1/100)
    · have h2 : ¬((1/100 : ℚ) < p.2) := by linarith
      have h3 : p.2 < -(1/100) ∨ (1/100 : ℚ) < p.2 := Or.inl h1
      rw [filter_cons_pos _ p bals h1, filter_cons_neg _ p bals h2, filter_cons_pos _ p bals h3]
      simp only [List.length_cons]
      omega
    · by_cases h2 : (1/100 : ℚ) < p.2
      · have h3 : p.2 < -(1/100) ∨ (1/100 : ℚ) < p.2 := Or.inr h2
        rw [filter_cons_neg _ p bals h1, filter_cons_pos _ p bals h2, filter_cons_pos _ p bals h3]
        simp only [List.length_cons]
        omega
      · have h3 : ¬(p.2 < -(1/100) ∨ (1/100 : ℚ) < p.2) := by
          rintro (h | h)
          · exact h1 h
          · exact h2 h
        rw [filter_cons_neg _ p bals h1, filter_cons_neg _ p bals h2, filter_cons_neg _ p bals h3]
        exact ih

/-! The claims. -/

/-- C10: `calculate_person_nights` looks each stay member up in the family map
and fails with a `KeyError` for a member absent from it; once member
validation has passed (every stay member is a key of the map) the error
branch is unreachable and the aggregator is total.  The result is `ok` exactly
when every stay member is a key, and a raised key is never one of the map's
keys. -/
theorem c10_person_nights_totality (stays : List StayRecord) (m2f : List (String × String)) :
    ((∃ fn, calculate_person_nights stays m2f = .ok fn)
      ↔ ∀ s ∈ stays, s.member_name ∈ m2f.map Prod.fst)
    ∧ (∀ k, calculate_person_nights stays m2f = .error k → k ∉ m2f.map Prod.fst) := by
  constructor
  · exact person_nights_ok_iff stays m2f
  · intro k h
    unfold calculate_person_nights at h
    exact person_nights_foldl_error_notmem stays m2f [] k h

theorem c10_person_nights_totality_witness :
    calculate_person_nights [⟨"Zack", 1⟩] [] = .error "Zack"
      ∧ "Zack" ∉ ([] : List (String × String)).map Prod.fst := by
  have h : calculate_person_nights [⟨"Zack", 1⟩] [] = .error "Zack" := rfl
  exact ⟨h, (c10_person_nights_totality [⟨"Zack", 1⟩] []).2 "Zack" h⟩

/-- C9 counterexample: `parse_stays` accepts a negative nights field and
`parse_expenses` a negative amount, so the claimed nonnegativity fails on the
inputs `"Zack,-3"` and `"A,x,-5"`. -/
theorem c9_counterexample :
    (¬ ∀ s ∈ parse_stays "Zack,-3", 0 ≤ s.nights)
      ∧ (¬ ∀ e ∈ parse_expenses "A,x,-5", 0 ≤ e.amount) := by
  have hps : parse_stays "Zack,-3" = [⟨"Zack", -3⟩] := by decide
  have hpe : parse_expenses "A,x,-5" = [⟨"A", "x", -5, ""⟩] := by
    simp +decide [parse_expenses, splitLines, splitOnChar, pyStrip, pyFloat, pyFloatUnsigned,
      pyFloatMantissa, digitsToNat, digitsVal, qpow10]
  constructor
  · intro h
    have := h ⟨"Zack", -3⟩ (by rw [hps]; simp)
    exact absurd this (by decide)
  · intro h
    have := h ⟨"A", "x", -5, ""⟩ (by rw [hpe]; simp)
    norm_num at this

/-- C9 (amended): the record fields carry whatever signed number the Python
`int`/`float` conversion produces, with no sign restriction; in particular,
for input text containing no `-` character every parsed stay has
nonnegative nights and every parsed expense a nonnegative amount. -/
theorem c9_sign_amended (text : String) (h : '-' ∉ text.data) :
    (∀ s ∈ parse_stays text, 0 ≤ s.nights) ∧ (∀ e ∈ parse_expenses text, 0 ≤ e.amount) :=
  ⟨parse_stays_nonneg text h, parse_expenses_nonneg text h⟩

theorem c9_sign_amended_witness :
    ('-' ∉ "B,1".data)
      ∧ ((∀ s ∈ parse_stays "B,1", 0 ≤ s.nights) ∧ (∀ e ∈ parse_expenses "B,1", 0 ≤ e.amount)) :=
  ⟨by decide, c9_sign_amended "B,1" (by decide)⟩

/-- C5: the number of transfers emitted by `calculate_settlements` is at most
the number of families whose balance lies outside the ±0.01 tolerance band,
minus one (truncated at zero). -/
theorem c5_settlement_count (bals : List (String × ℚ)) :
    (calculate_settlements bals).length
      ≤ (bals.filter (fun p => p.2 < -(1/100) ∨ (1/100 : ℚ) < p.2)).length - 1 := by
  unfold calculate_settlements
  dsimp only
  have hlen := settleAux_length
    ((List.insertionSort sortKeyLe
        ((bals.filter (fun p => p.2 < -(1/100))).map (fun p => (p.1, -p.2)))).length
      + (List.insertionSort sortKeyLe (bals.filter (fun p => (1/100 : ℚ) < p.2))).length)
    (List.insertionSort sortKeyLe
      ((bals.filter (fun p => p.2 < -(1/100))).map (fun p => (p.1, -p.2))))
    (List.insertionSort sortKeyLe (bals.filter (fun p => (1/100 : ℚ) < p.2)))
  have hD : (List.insertionSort sortKeyLe
      ((bals.filter (fun p => p.2 < -(1/100))).map (fun p => (p.1, -p.2)))).length
      = (bals.filter (fun p => p.2 < -(1/100))).length := by
    rw [(List.perm_insertionSort sortKeyLe _).length_eq, List.length_map]
  have hC : (List.insertionSort sortKeyLe (bals.filter (fun p => (1/100 : ℚ) < p.2))).length
      = (bals.filter (fun p => (1/100 : ℚ) < p.2)).length :=
    (List.perm_insertionSort sortKeyLe _).length_eq
  have htwo := two_way_filter_length bals
  omega

/-- C8: the settlement loop terminates.  One loop iteration of `settleAux`
emits at most one transfer and applies `popStep` to both lists, which always
removes at least one entry in total; consequently the fuelled loop is
independent of the fuel once the fuel reaches the total list length, i.e. the
computation is a total function of the two lists. -/
theorem c8_termination :
    (∀ (debtor : String) (debt : ℚ) (ds : List (String × ℚ))
        (creditor : String) (credit : ℚ) (cs : List (String × ℚ)) (fuel : ℕ),
      settleAux (fuel + 1) ((debtor, debt) :: ds) ((creditor, credit) :: cs)
          = (if 1/100 < min debt credit
              then [(debtor, creditor, min debt credit)] else [])
            ++ settleAux fuel (popStep ((debtor, debt) :: ds) (min debt credit))
              (popStep ((creditor, credit) :: cs) (min debt credit))
        ∧ (popStep ((debtor, debt) :: ds) (min debt credit)).length
            + (popStep ((creditor, credit) :: cs) (min debt credit)).length
          < ((debtor, debt) :: ds).length + ((creditor, credit) :: cs).length)
    ∧ (∀ (ds cs : List (String × ℚ)) (fuel1 fuel2 : ℕ),
        ds.length + cs.length ≤ fuel1 → ds.length + cs.length ≤ fuel2 →
        settleAux fuel1 ds cs = settleAux fuel2 ds cs) := by
  constructor
  · intro debtor debt ds creditor credit cs fuel
    constructor
    · rw [settleAux]
      split <;> simp
    · exact settle_step_decrease debtor debt ds creditor credit cs
  · intro ds cs fuel1 fuel2 h1 h2
    exact settleAux_fuel_irrel fuel1 ds cs fuel2 h1 h2

theorem c8_termination_witness :
    ([("A", (2 : ℚ))].length + [("B", (2 : ℚ))].length ≤ 5)
      ∧ ([("A", (2 : ℚ))].length + [("B", (2 : ℚ))].length ≤ 2)
      ∧ settleAux 5 [("A", (2 : ℚ))] [("B", (2 : ℚ))]
        = settleAux 2 [("A", (2 : ℚ))] [("B", (2 : ℚ))] :=
  ⟨by norm_num, by norm_num,
    c8_termination.2 [("A", (2 : ℚ))] [("B", (2 : ℚ))] 5 2 (by norm_num) (by norm_num)⟩

/-- C1: for every input on which the calculation block succeeds (validation
passed and the division was performed), the balances it stores sum to zero —
exactly, in this exact-arithmetic model, hence certainly within the 0.01
tolerance. -/
theorem c1_conservation (fT sT eT : String) (r : CalcResults)
    (h : calcBlock fT sT eT = .ok r) :
    |(r.balances.map Prod.snd).sum| ≤ 1/100 := by
  rw [calcBlock_ok_balances_sum fT sT eT r h]
  norm_num

set_option maxHeartbeats 2000000 in
theorem c1_conservation_witness :
    calcBlock "A:B" "B,1" "A,x,2" = .ok
      { member_to_family := [("B", "A")]
        stays := [⟨"B", 1⟩]
        expenses := [⟨"A", "x", 2, ""⟩]
        family_nights := [("A", 1)]
        family_payments := [("A", 2)]
        total_expenses := 2
        total_nights := 1
        cost_per_night := 2
        balances := [("A", 0)]
        settlements := []
        all_families := ["A"] }
    ∧ |(([("A", (0 : ℚ))].map Prod.snd).sum)| ≤ 1/100 := by
  have hrun : calcBlock "A:B" "B,1" "A,x,2" = .ok
      { member_to_family := [("B", "A")]
        stays := [⟨"B", 1⟩]
        expenses := [⟨"A", "x", 2, ""⟩]
        family_nights := [("A", 1)]
        family_payments := [("A", 2)]
        total_expenses := 2
        total_nights := 1
        cost_per_night := 2
        balances := [("A", 0)]
        settlements := []
        all_families := ["A"] } := by
    have hf : parse_families "A:B" = [("B", "A")] := by decide
    have hs : parse_stays "B,1" = [⟨"B", 1⟩] := by decide
    have he : parse_expenses "A,x,2" = [⟨"A", "x", 2, ""⟩] := by
      simp +decide [parse_expenses, splitLines, splitOnChar, pyStrip, pyFloat, pyFloatUnsigned,
        pyFloatMantissa, digitsToNat, digitsVal]
    have hpn : calculate_person_nights [⟨"B", 1⟩] [("B", "A")] = .ok [("A", 1)] := by
      simp +decide [calculate_person_nights, pnStep, alLookup, alAdd, Except.bind]
    unfold calcBlock
    rw [hf, hs, he]
    dsimp only
    rw [hpn]
    dsimp only
    rw [if_neg (by decide), if_neg (by decide), if_neg (by decide)]
    norm_num [CalcResults.mk.injEq, calculate_family_payments, alAdd, alLookupD, alLookup,
      calculate_settlements, settleAux, List.insertionSort, List.orderedInsert, sortKeyLe,
      List.filter, decide_eq_true_eq, List.dedup]
  refine ⟨hrun, ?_⟩
  exact c1_conservation "A:B" "B,1" "A,x,2"
    { member_to_family := [("B", "A")], stays := [⟨"B", 1⟩], expenses := [⟨"A", "x", 2, ""⟩],
      family_nights := [("A", 1)], family_payments := [("A", 2)], total_expenses := 2,
      total_nights := 1, cost_per_night := 2, balances := [("A", 0)], settlements := [],
      all_families := ["A"] } hrun

/-- C2 counterexample: applying the transfers in the direction the claim
specifies — subtracting from the payer and adding to the payee — drives the
engine's own flagship balances (+25/−25) to ±50, not to zero. -/
theorem c2_counterexample :
    applyTransfersAsSpecified (calculate_settlements [("A", (-25 : ℚ)), ("B", 25)])
        [("A", (-25 : ℚ)), ("B", 25)] = [("A", -50), ("B", 50)]
      ∧ ¬ (|(-50 : ℚ)| ≤ 1/100) := by
  constructor
  · norm_num [applyTransfersAsSpecified, calculate_settlements, settleAux, popStep,
      List.insertionSort, List.orderedInsert, sortKeyLe, strLt, charListLt, paidBy, receivedBy,
      List.filter, decide_eq_true_eq]
    simp +decide []
    all_goals norm_num
  · norm_num

/-- C2 (amended): for a balance mapping with distinct family names whose
balances sum to zero, applying every emitted transfer in the settling
direction — adding the amount to the payer's balance and subtracting it from
the payee's (the direction that reduces both outstanding balances) — leaves
every family's balance within `0.01 * (2n + 1)` of zero, where `n` is the
number of families.  The fixed 0.01 tolerance of the original claim is not
achievable: sub-tolerance families and sub-tolerance pops can strand more
than 0.01 on a single family. -/
theorem c2_settling_bound (bals : List (String × ℚ))
    (hnodup : (bals.map Prod.fst).Nodup) (hzero : (bals.map Prod.snd).sum = 0) :
    ∀ p ∈ applyTransfersSettling (calculate_settlements bals) bals,
      |p.2| ≤ (1/100) * (2 * (bals.length : ℚ) + 1) := by
  intro p hp
  unfold applyTransfersSettling at hp
  rcases List.mem_map.mp hp with ⟨q, hq, hqp⟩
  rw [← hqp]
  exact calculate_settlements_bound bals hnodup hzero q.1 q.2 (by rwa [Prod.mk.eta])

theorem c2_settling_bound_witness :
    (([("A", (-25 : ℚ)), ("B", 25)].map Prod.fst).Nodup)
    ∧ (([("A", (-25 : ℚ)), ("B", 25)].map Prod.snd).sum = 0)
    ∧ (("A", (0 : ℚ)) ∈ applyTransfersSettling
        (calculate_settlements [("A", (-25 : ℚ)), ("B", 25)]) [("A", (-25 : ℚ)), ("B", 25)])
    ∧ |(("A", (0 : ℚ)).2)| ≤ (1/100) * (2 * (([("A", (-25 : ℚ)), ("B", 25)]).length : ℚ) + 1) := by
  have happly : applyTransfersSettling
      (calculate_settlements [("A", (-25 : ℚ)), ("B", 25)]) [("A", (-25 : ℚ)), ("B", 25)]
      = [("A", 0), ("B", 0)] := by
    norm_num [applyTransfersSettling, calculate_settlements, settleAux, popStep,
      List.insertionSort, List.orderedInsert, sortKeyLe, strLt, charListLt, paidBy, receivedBy,
      List.filter, decide_eq_true_eq]
    simp +decide []
  have hmem : ("A", (0 : ℚ)) ∈ applyTransfersSettling
      (calculate_settlements [("A", (-25 : ℚ)), ("B", 25)]) [("A", (-25 : ℚ)), ("B", 25)] := by
    rw [happly]
    simp
  refine ⟨by decide, by norm_num, hmem, ?_⟩
  exact c2_settling_bound [("A", (-25 : ℚ)), ("B", 25)] (by decide) (by norm_num) ("A", 0) hmem

theorem tolerance_not_in_transfers (bals : List (String × ℚ))
    (hnodup : (bals.map Prod.fst).Nodup) (f : String) (b : ℚ)
    (hfb : (f, b) ∈ bals) (hb : |b| ≤ 1/100) :
    ∀ t ∈ calculate_settlements bals, f ≠ t.1 ∧ f ≠ t.2.1 := by
  intro t ht
  unfold calculate_settlements at ht
  dsimp only at ht
  have hmem := settleAux_mem _ _ _ t ht
  have habs := abs_le.mp hb
  constructor
  · intro hft
    have h1 := hmem.1
    rw [← hft] at h1
    rw [((List.perm_insertionSort sortKeyLe _).map Prod.fst).mem_iff, map_fst_negmap] at h1
    rcases List.mem_map.mp h1 with ⟨q, hq, hqf⟩
    have hq' := (mem_filter_prop bals q).mp hq
    have hbq : b = q.2 := nodup_keys_unique bals f b q.2 hnodup hfb (by
      have hqeq : q = (f, q.2) := by
        rw [← hqf]
      rw [← hqeq]
      exact hq'.1)
    linarith [hq'.2, habs.1]
  · intro hft
    have h2 := hmem.2.1
    rw [← hft] at h2
    rw [((List.perm_insertionSort sortKeyLe _).map Prod.fst).mem_iff] at h2
    rcases List.mem_map.mp h2 with ⟨q, hq, hqf⟩
    have hq' := (mem_filter_prop bals q).mp hq
    have hbq : b = q.2 := nodup_keys_unique bals f b q.2 hnodup hfb (by
      have hqeq : q = (f, q.2) := by
        rw [← hqf]
      rw [← hqeq]
      exact hq'.1)
    linarith [hq'.2, habs.2]

/-- C4: `calculate_settlements` coincides, on every balance mapping, with the
settlement engine transcribed step by step from the specification (partition
with the ±0.01 band omitted, one descending sort with ties by ascending name,
head-matching rounds without re-sorting, emission above 0.01, head removal
below 0.01); moreover a family whose balance lies within ±0.01 of zero
appears in no transfer, on either side. -/
theorem c4_greedy_procedure :
    (∀ bals, calculate_settlements bals = specSettlementEngine bals)
    ∧ (∀ bals, (bals.map Prod.fst).Nodup → ∀ f b, (f, b) ∈ bals → |b| ≤ 1/100 →
        ∀ t ∈ calculate_settlements bals, f ≠ t.1 ∧ f ≠ t.2.1) :=
  ⟨calculate_settlements_eq_spec,
    fun bals hn f b hfb hb => tolerance_not_in_transfers bals hn f b hfb hb⟩

theorem c4_greedy_procedure_witness :
    (calculate_settlements [("A", (1 : ℚ)/200), ("B", -25), ("C", 25)]
      = specSettlementEngine [("A", (1 : ℚ)/200), ("B", -25), ("C", 25)])
    ∧ (("B", "C", (25 : ℚ)) ∈ calculate_settlements [("A", (1 : ℚ)/200), ("B", -25), ("C", 25)])
    ∧ ("A" ≠ "B" ∧ "A" ≠ "C") := by
  have heval : calculate_settlements [("A", (1 : ℚ)/200), ("B", -25), ("C", 25)]
      = [("B", "C", 25)] := by
    norm_num [calculate_settlements, settleAux, popStep, List.insertionSort,
      List.orderedInsert, sortKeyLe, strLt, charListLt, List.filter, decide_eq_true_eq]
  have hmem : ("B", "C", (25 : ℚ)) ∈ calculate_settlements [("A", (1 : ℚ)/200), ("B", -25), ("C", 25)] := by
    rw [heval]
    simp
  refine ⟨c4_greedy_procedure.1 _, hmem, ?_⟩
  exact c4_greedy_procedure.2 [("A", (1 : ℚ)/200), ("B", -25), ("C", 25)] (by decide)
    "A" ((1 : ℚ)/200) (List.mem_cons_self _ _)
    (by rw [abs_of_nonneg (by norm_num : (0 : ℚ) ≤ 1/200)]; norm_num) ("B", "C", 25) hmem

/-- C3 (amended): the code has no pre-division guard and no distinct
division-by-zero error.  When validation passes, expenses are present and the
total person-nights is zero, the division `total_expenses / total_nights` is
attempted and the resulting `ZeroDivisionError` is caught by the outermost
generic handler, surfacing as the generic exception text
`"float division by zero"` (Python's own message for float division), not as
a distinct pre-checked "no stays recorded" error.  No result record (hence no
balance output) is produced. -/
theorem c3_zero_nights_generic (fT sT eT : String)
    (hm : (parse_stays sT).filter
      (fun s => !(alLookup s.member_name (parse_families fT)).isSome) = [])
    (hf : (parse_expenses eT).filter
      (fun e => !(((parse_families fT).map Prod.snd).contains e.paid_by_family)) = [])
    (hexp : parse_expenses eT ≠ [])
    (hzero : ((parse_stays sT).map (fun s => s.nights)).sum = 0) :
    calcBlock fT sT eT = .error (.genericException "float division by zero") := by
  have hall := List.filter_eq_nil_iff.mp hm
  have hpn : ∃ fn, calculate_person_nights (parse_stays sT) (parse_families fT) = .ok fn := by
    refine (person_nights_ok_iff _ _).mpr (fun s hs => ?_)
    have hb := hall s hs
    rw [← alLookup_isSome]
    exact Option.isSome_iff_ne_none.mpr (by simpa using hb)
  obtain ⟨fn, hfn⟩ := hpn
  have hsum : (fn.map Prod.snd).sum = 0 := by
    rw [(person_nights_ok_props _ _ _ hfn).1]
    exact hzero
  unfold calcBlock
  dsimp only
  rw [hm, hf, hfn]
  dsimp only
  rw [if_neg (by simp), if_neg (by simp), if_pos hsum,
    if_neg (by simpa [List.isEmpty_iff] using hexp)]

theorem c3_zero_nights_generic_witness :
    ((parse_stays "").filter
      (fun s => !(alLookup s.member_name (parse_families "A:Bob")).isSome) = [])
    ∧ ((parse_expenses "A,rent,5").filter
      (fun e => !(((parse_families "A:Bob").map Prod.snd).contains e.paid_by_family)) = [])
    ∧ (parse_expenses "A,rent,5" ≠ [])
    ∧ (((parse_stays "").map (fun s => s.nights)).sum = 0)
    ∧ calcBlock "A:Bob" "" "A,rent,5"
        = .error (.genericException "float division by zero") := by
  have h1 : (parse_stays "").filter
      (fun s => !(alLookup s.member_name (parse_families "A:Bob")).isSome) = [] := by decide
  have h2 : (parse_expenses "A,rent,5").filter
      (fun e => !(((parse_families "A:Bob").map Prod.snd).contains e.paid_by_family)) = [] := by
    simp +decide [parse_expenses, splitLines, splitOnChar, pyStrip, pyFloat, pyFloatUnsigned,
      pyFloatMantissa, digitsToNat, digitsVal, parse_families, splitFirst, alInsert,
      List.filter]
  have h3 : parse_expenses "A,rent,5" ≠ [] := by
    simp +decide [parse_expenses, splitLines, splitOnChar, pyStrip, pyFloat, pyFloatUnsigned,
      pyFloatMantissa, digitsToNat, digitsVal]
  have h4 : ((parse_stays "").map (fun s => s.nights)).sum = 0 := by decide
  exact ⟨h1, h2, h3, h4, c3_zero_nights_generic "A:Bob" "" "A,rent,5" h1 h2 h3 h4⟩

/-- C3 counterexample: on a run with an expense but no stays the cycle fails
with the generic exception text `"float division by zero"` — the division was
attempted — and not with the distinct pre-checked `"no stays recorded"`
division error the claim describes. -/
theorem c3_counterexample :
    calcBlock "A:Bob" "" "A,rent,5" = .error (.genericException "float division by zero")
      ∧ calcBlock "A:Bob" "" "A,rent,5" ≠ .error (.divisionByZero "no stays recorded") := by
  have hrun : calcBlock "A:Bob" "" "A,rent,5"
      = .error (.genericException "float division by zero") := by
    have hs : parse_stays "" = [] := by decide
    have he : parse_expenses "A,rent,5" = [⟨"A", "rent", 5, ""⟩] := by
      simp +decide [parse_expenses, splitLines, splitOnChar, pyStrip, pyFloat, pyFloatUnsigned,
        pyFloatMantissa, digitsToNat, digitsVal]
    have hf : parse_families "A:Bob" = [("Bob", "A")] := by decide
    unfold calcBlock
    rw [hf, hs, he]
    dsimp only
    rw [if_neg (by simp), if_neg (by decide)]
    dsimp only [calculate_person_nights, List.foldl]
    rw [if_pos (by decide), if_neg (by decide)]
  exact ⟨hrun, by rw [hrun]; simp⟩

/-- C6: on an input containing both a stay whose member is absent from the
family map and an expense whose family is absent from the family map, the
calculation block fails with the unknown-members error (carrying a nonempty
name list) and never with the unknown-families error: member validation runs
first and short-circuits the cycle.  The `hf` hypothesis records the family
violation required by the claim; it plays no role in the outcome, which is
exactly the short-circuiting the claim asserts. -/
theorem c6_member_validation_first (fT sT eT : String)
    (hm : ∃ s ∈ parse_stays sT, alLookup s.member_name (parse_families fT) = none)
    (hf : ∃ e ∈ parse_expenses eT,
      ((parse_families fT).map Prod.snd).contains e.paid_by_family = false) :
    (∃ names, names ≠ [] ∧ calcBlock fT sT eT = .error (.unknownMembers names))
      ∧ ∀ fams, calcBlock fT sT eT ≠ .error (.unknownFamilies fams) := by
  obtain ⟨s, hs, hlk⟩ := hm
  unfold calcBlock
  dsimp only
  have hmem : s.member_name ∈ (List.map (fun s => s.member_name)
      (List.filter (fun s => !(alLookup s.member_name (parse_families fT)).isSome)
        (parse_stays sT))) := by
    refine List.mem_map.mpr ⟨s, List.mem_filter.mpr ⟨hs, ?_⟩, rfl⟩
    rw [hlk]
    rfl
  have hL := List.ne_nil_of_mem hmem
  rw [if_pos hL]
  refine ⟨⟨_, hL, rfl⟩, fun fams h => by simp at h⟩

theorem c6_member_validation_first_witness :
    (∃ s ∈ parse_stays "Zack,3",
        alLookup s.member_name (parse_families "A:Bob") = none)
    ∧ (∃ e ∈ parse_expenses "Qux,f,5",
        ((parse_families "A:Bob").map Prod.snd).contains e.paid_by_family = false)
    ∧ ((∃ names, names ≠ []
          ∧ calcBlock "A:Bob" "Zack,3" "Qux,f,5" = .error (.unknownMembers names))
        ∧ ∀ fams, calcBlock "A:Bob" "Zack,3" "Qux,f,5" ≠ .error (.unknownFamilies fams)) := by
  have h1 : ∃ s ∈ parse_stays "Zack,3",
      alLookup s.member_name (parse_families "A:Bob") = none := by decide
  have h2 : ∃ e ∈ parse_expenses "Qux,f,5",
      ((parse_families "A:Bob").map Prod.snd).contains e.paid_by_family = false := by
    have he : parse_expenses "Qux,f,5" = [⟨"Qux", "f", 5, ""⟩] := by
      simp +decide [parse_expenses, splitLines, splitOnChar, pyStrip, pyFloat, pyFloatUnsigned,
        pyFloatMantissa, digitsToNat, digitsVal]
    rw [he]
    exact ⟨⟨"Qux", "f", 5, ""⟩, by simp, by decide⟩
  exact ⟨h1, h2, c6_member_validation_first "A:Bob" "Zack,3" "Qux,f,5" h1 h2⟩

/-- C7 (amended): the unknown-members error carries the raw list of offending
member names in stay order, duplicates included — not a deduplicated set —
while the unknown-families error does carry the deduplicated set of offending
family names (the code wraps the offending list in `set()` before display). -/
theorem c7_error_payloads (fT sT eT : String) :
    (∀ L, calcBlock fT sT eT = .error (.unknownMembers L) →
      L = ((parse_stays sT).filter
          (fun s => !(alLookup s.member_name (parse_families fT)).isSome)).map
        (fun s => s.member_name))
    ∧ (∀ S, calcBlock fT sT eT = .error (.unknownFamilies S) →
      ∀ name, name ∈ S ↔ ∃ e ∈ parse_expenses eT,
        (((parse_families fT).map Prod.snd).contains e.paid_by_family = false)
          ∧ e.paid_by_family = name) := by
  constructor
  · intro L h
    unfold calcBlock at h
    dsimp only at h
    split at h
    · injection h with h1
      injection h1 with h2
      exact h2.symm
    · split at h
      · simp at h
      · split at h
        · simp at h
        · split at h
          · simp at h
          · simp at h
  · intro S h name
    unfold calcBlock at h
    dsimp only at h
    split at h
    · simp at h
    · split at h
      · injection h with h1
        injection h1 with h2
        subst h2
        simp only [List.mem_toFinset, List.mem_map, List.mem_filter]
        constructor
        · rintro ⟨e, ⟨he, hpred⟩, hname⟩
          exact ⟨e, he, by simpa using hpred, hname⟩
        · rintro ⟨e, he, hpred, hname⟩
          exact ⟨e, ⟨he, by simpa using hpred⟩, hname⟩
      · split at h
        · simp at h
        · split at h
          · simp at h
          · simp at h

theorem c7_error_payloads_witness :
    (["Zack", "Zack"] = ((parse_stays "Zack,1\nZack,2").filter
        (fun s => !(alLookup s.member_name (parse_families "A:Bob")).isSome)).map
      (fun s => s.member_name))
    ∧ ∀ name, name ∈ ({"Qux"} : Finset String) ↔ ∃ e ∈ parse_expenses "Qux,x,1",
        (((parse_families "A:Bob").map Prod.snd).contains e.paid_by_family = false)
          ∧ e.paid_by_family = name := by
  constructor
  · exact (c7_error_payloads "A:Bob" "Zack,1\nZack,2" "A,x,1").1 ["Zack", "Zack"] (by
      have hs : parse_stays "Zack,1\nZack,2" = [⟨"Zack", 1⟩, ⟨"Zack", 2⟩] := by decide
      have hf : parse_families "A:Bob" = [("Bob", "A")] := by decide
      unfold calcBlock
      rw [hs, hf]
      dsimp only
      rw [if_pos (by decide)]
      simp +decide [List.filter, alLookup])
  · exact (c7_error_payloads "A:Bob" "Bob,1" "Qux,x,1").2 {"Qux"} (by
      have hs : parse_stays "Bob,1" = [⟨"Bob", 1⟩] := by decide
      have hf : parse_families "A:Bob" = [("Bob", "A")] := by decide
      have he : parse_expenses "Qux,x,1" = [⟨"Qux", "x", 1, ""⟩] := by
        simp +decide [parse_expenses, splitLines, splitOnChar, pyStrip, pyFloat, pyFloatUnsigned,
          pyFloatMantissa, digitsToNat, digitsVal]
      unfold calcBlock
      rw [hs, hf, he]
      dsimp only
      rw [if_neg (by decide), if_pos (by decide)]
      simp +decide [List.filter])

/-- C7 counterexample: with the same member staying twice, the
unknown-members error carries the name twice — a list with duplicates, not
the deduplicated set the claim describes. -/
theorem c7_counterexample :
    calcBlock "A:Bob" "Zack,1\nZack,2" "A,x,1" = .error (.unknownMembers ["Zack", "Zack"])
      ∧ ¬ (["Zack", "Zack"] : List String).Nodup := by
  constructor
  · have hs : parse_stays "Zack,1\nZack,2" = [⟨"Zack", 1⟩, ⟨"Zack", 2⟩] := by decide
    have hf : parse_families "A:Bob" = [("Bob", "A")] := by decide
    unfold calcBlock
    rw [hs, hf]
    dsimp only
    rw [if_pos (by decide)]
    simp +decide [List.filter, alLookup]
  · decide
